import Mathlib

/-!
Verification development for the point-cloud-to-GLB converter
(`converter/downsampler.py`, `converter/reader.py`, `converter/exporter.py`).

Modelling conventions, fixed throughout this file:

* Scalar values carried by the pipeline (coordinates, voxel sizes, bounds)
  are modelled as exact numbers: `ℚ` for data coming from the input file and
  a `LinearOrderedField` with a `FloorRing` structure (instantiated at `ℚ`
  for concrete evaluation and at `ℝ` where the code produces irrational
  values such as `sqrt`/cube roots) for arithmetic performed by the code.
  IEEE-754 rounding of individual operations is outside the model.
* numpy/Python division by zero: where Python raises `ZeroDivisionError`
  (integer/true division of scalars) the model raises the corresponding
  error value explicitly; numpy array divisions by zero (which produce
  `inf`/`nan` and only a warning) occur in runs covered below only where
  every row is identical, in which case the grouping result (a single
  distinct row) agrees with the model's junk-value convention `x / 0 = 0`.
* `np.argsort`'s contract is captured by the predicate `IsArgsort`: the
  result is some permutation of the index range along which the keys are
  nondecreasing.  The default sort kind (quicksort/introsort) is NOT stable,
  so the relative order of equal keys is unspecified; properties claimed of
  the program are therefore proven for every `IsArgsort` outcome, and the
  executable model `sortedIdx` (a merge sort by the lexicographic order on
  (key, index)) is proven to be one admissible outcome.
* `np.int64` arithmetic wraps around silently on overflow; the subtraction,
  additions and multiplications of the voxel-key computation are modelled
  with an explicit two's-complement wrap `wrap64`.  `voxelShiftExact` /
  `voxelLinExact` are the ideal (unbounded ℤ) counterparts, which agree
  with the wrapped ones exactly when no intermediate overflows.
* `np.unique(sorted, return_index=...)` group ranges over a sorted array are
  exactly the maximal runs of equal keys, modelled by `groupRuns`.
* `np.argmin` returns the position of the first minimal element; the
  selection is computed with squared Euclidean distances, which has the same
  argmin as `np.linalg.norm` distances because `Real.sqrt` is monotone; the
  theorems about it are stated with genuine Euclidean distances.
-/

/-! ## Basic data: points, colors, grid indices -/

abbrev Q3 : Type := ℚ × ℚ × ℚ

abbrev N3 : Type := ℕ × ℕ × ℕ

abbrev I3 : Type := ℤ × ℤ × ℤ

def q0 : Q3 := (0, 0, 0)

def n0 : N3 := (0, 0, 0)

/-- Componentwise minimum of two integer triples. -/
def imin3 (a b : I3) : I3 := (min a.1 b.1, min a.2.1 b.2.1, min a.2.2 b.2.2)

/-- Componentwise maximum of two integer triples. -/
def imax3 (a b : I3) : I3 := (max a.1 b.1, max a.2.1 b.2.1, max a.2.2 b.2.2)

/-- `arr.min(axis=0)` over a list of integer triples (numpy raises on an
empty array; the model returns `(0,0,0)` there, and every use below is
guarded by a non-emptiness hypothesis). -/
def npMin3 (l : List I3) : I3 :=
  match l with
  | [] => (0, 0, 0)
  | x :: xs => xs.foldl imin3 x

/-- `arr.max(axis=0)` over a list of integer triples. -/
def npMax3 (l : List I3) : I3 :=
  match l with
  | [] => (0, 0, 0)
  | x :: xs => xs.foldl imax3 x

/-- `arr.max()` over a list of rationals (used for per-axis bounds). -/
def npMaxQ (l : List ℚ) : ℚ :=
  match l with
  | [] => 0
  | x :: xs => xs.foldl max x

/-- `arr.min()` over a list of rationals. -/
def npMinQ (l : List ℚ) : ℚ :=
  match l with
  | [] => 0
  | x :: xs => xs.foldl min x

section VoxelGrid

variable {K : Type} [LinearOrderedField K] [FloorRing K]

/-! ## downsampler.py: downsample_voxel_grid_nearest -/

/-- `np.floor(points / voxel_size).astype(np.int64)`, one row:
the integer grid-cell index of a point at resolution `v`. -/
def gridIndex (v : K) (p : Q3) : I3 :=
  (⌊(p.1 : K) / v⌋, ⌊(p.2.1 : K) / v⌋, ⌊(p.2.2 : K) / v⌋)

/-- `grid_indices` for the whole point set. -/
def gridIndices (v : K) (pts : List Q3) : List I3 :=
  pts.map (gridIndex v)

/-- Two's-complement wrap-around of 64-bit signed integer arithmetic
(`np.int64` overflows silently): the representative of `x` in
`[-2^63, 2^63)`. -/
def wrap64 (x : ℤ) : ℤ := (x + 2 ^ 63) % 2 ^ 64 - 2 ^ 63

/-- `grid_indices -= offset`: shift a grid index by the componentwise
minimum `offset` of the whole array; the `int64` subtraction wraps. -/
def voxelShift (o t : I3) : I3 :=
  (wrap64 (t.1 - o.1), wrap64 (t.2.1 - o.2.1), wrap64 (t.2.2 - o.2.2))

/-- Row-major linearization of a shifted grid index, where `m` is the
componentwise maximum of the shifted array (so `max_idx = m + 1`):
`gx * (max_idx_y * max_idx_z) + gy * max_idx_z + gz`, with every `int64`
addition and multiplication wrapping. -/
def voxelLin (m t : I3) : ℤ :=
  wrap64
    (wrap64 (wrap64 (t.1 * wrap64 (wrap64 (m.2.1 + 1) * wrap64 (m.2.2 + 1))) +
      wrap64 (t.2.1 * wrap64 (m.2.2 + 1))) + t.2.2)

/-- The shift as it behaves when no `int64` overflow occurs (exact
integers). -/
def voxelShiftExact (o t : I3) : I3 := (t.1 - o.1, t.2.1 - o.2.1, t.2.2 - o.2.2)

/-- The linearization as it behaves when no `int64` overflow occurs. -/
def voxelLinExact (m t : I3) : ℤ :=
  t.1 * ((m.2.1 + 1) * (m.2.2 + 1)) + t.2.1 * (m.2.2 + 1) + t.2.2

/-- The linearized `voxel_keys` array:
subtract the componentwise minimum (`offset`) from the grid indices, take
`max_idx` as componentwise maximum plus one, and linearize row-major. -/
def voxelKeys (v : K) (pts : List Q3) : List ℤ :=
  let g := gridIndices v pts
  let s := g.map (voxelShift (npMin3 g))
  s.map (voxelLin (npMax3 s))

/-- The key list as the program would compute it if no `int64` operation
overflowed; `voxelKeys v pts = voxelKeysExact v pts` is exactly the
statement that the key computation does not wrap on this input. -/
def voxelKeysExact (v : K) (pts : List Q3) : List ℤ :=
  let g := gridIndices v pts
  let s := g.map (voxelShiftExact (npMin3 g))
  s.map (voxelLinExact (npMax3 s))

/-- Key of the point at position `i` of the input order. -/
def voxelKeyFn (v : K) (pts : List Q3) : ℕ → ℤ :=
  fun i => (voxelKeys v pts).getD i 0

/-- Comparison used by the executable resolution of `np.argsort` below:
lexicographic on (key, original index). -/
def lexLe (k : ℕ → ℤ) (i j : ℕ) : Bool :=
  decide (k i < k j) || (decide (k i = k j) && decide (i ≤ j))

/-- `sorted_indices = np.argsort(voxel_keys)`: one admissible outcome, used
as the executable model's resolution of the unspecified tie order.  numpy's
default kind (quicksort) guarantees only `IsArgsort` below, not stability,
so nothing proven about the program may depend on which admissible outcome
this is; see `sortedIdx_isArgsort`. -/
def sortedIdx (v : K) (pts : List Q3) : List ℕ :=
  (List.range pts.length).mergeSort (lexLe (voxelKeyFn v pts))

/-- Everything `np.argsort(keys)` guarantees about its result (default
kind): it is a permutation of `range n` along which the keys are
nondecreasing.  The relative order of equal keys is unspecified (the
default quicksort is not stable), so any list satisfying this predicate is
a possible program behaviour. -/
def IsArgsort (k : ℕ → ℤ) (n : ℕ) (σ : List ℕ) : Prop :=
  σ.Perm (List.range n) ∧ σ.Pairwise (fun i j => k i ≤ k j)

/-- Maximal runs of equal keys in a list of point indices; on the sorted
index array this is exactly the grouping computed by
`np.unique(sorted_keys, return_index=True)` / `group_starts` / `group_ends`. -/
def groupRuns (k : ℕ → ℤ) : List ℕ → List (List ℕ)
  | [] => []
  | x :: xs =>
    (x :: xs.takeWhile (fun y => decide (k y = k x))) ::
      groupRuns k (xs.dropWhile (fun y => decide (k y = k x)))
termination_by l => l.length
decreasing_by
  simp only [List.length_cons]
  exact Nat.lt_succ_of_le (List.dropWhile_sublist _).length_le

/-- The per-voxel groups of original point indices. -/
def voxelGroups (v : K) (pts : List Q3) : List (List ℕ) :=
  groupRuns (voxelKeyFn v pts) (sortedIdx v pts)

/-- `centroid = group_points.mean(axis=0)`: componentwise sum divided by the
group size. -/
def centroid (pts : List Q3) (g : List ℕ) : Q3 :=
  let ps := g.map (fun i => pts.getD i q0)
  (((ps.map (fun p => p.1)).sum) / (g.length : ℚ),
   ((ps.map (fun p => p.2.1)).sum) / (g.length : ℚ),
   ((ps.map (fun p => p.2.2)).sum) / (g.length : ℚ))

/-- Squared Euclidean distance between two points. -/
def distSq (a b : Q3) : ℚ :=
  (a.1 - b.1) ^ 2 + (a.2.1 - b.2.1) ^ 2 + (a.2.2 - b.2.2) ^ 2

/-- The Euclidean distance `np.linalg.norm(a - b)` between two points. -/
noncomputable def euclidDist (a b : Q3) : ℝ :=
  Real.sqrt ((distSq a b : ℚ) : ℝ)

/-- `group_point_indices[np.argmin(distances)]`: the group member whose
distance to the centroid of the group is minimal, the first such member in
group order on ties (`np.argmin` returns the first position of the
minimum).  Comparisons use squared distances, which order distances
identically. -/
def pickNearest (pts : List Q3) (g : List ℕ) : ℕ :=
  let c := centroid pts g
  match g with
  | [] => 0
  | i :: rest =>
    rest.foldl
      (fun best j =>
        if distSq (pts.getD j q0) c < distSq (pts.getD best q0) c then j else best)
      i

/-- `selected_indices`, in ascending order of the linearized voxel key. -/
def selectedIdx (v : K) (pts : List Q3) : List ℕ :=
  (voxelGroups v pts).map (pickNearest pts)

/-- `downsample_voxel_grid_nearest(points, colors, voxel_size)`:
returns `(points[selected_indices], colors[selected_indices],
selected_indices)`. -/
def downsample_voxel_grid_nearest (pts : List Q3) (cols : List N3) (v : K) :
    List Q3 × List N3 × List ℕ :=
  ((selectedIdx v pts).map (fun i => pts.getD i q0),
   (selectedIdx v pts).map (fun i => cols.getD i n0),
   selectedIdx v pts)

/-! ## downsampler.py: find_voxel_size_for_target -/

/-- `len(np.unique(np.floor(points / vmid).astype(np.int64), axis=0))`:
the number of occupied voxels at resolution `v`. -/
def voxelCount (pts : List Q3) (v : K) : ℕ :=
  ((pts.map (gridIndex v)).dedup).length

/-- Errors raised by the Python code. -/
inductive PyErr : Type where
  | valueError : PyErr
  | zeroDivisionError : PyErr
  | calledProcessError : PyErr
deriving DecidableEq

/-- The body of the `for _ in range(50)` loop of
`find_voxel_size_for_target`, with explicit fuel.  The third scalar
argument carries the `vmid` of the previous iteration, which is what the
function returns when the budget is exhausted.  `abs(count - target) /
target` is Python scalar division: it raises `ZeroDivisionError` when
`target = 0`. -/
def fvLoop (pts : List Q3) (target : ℤ) (tol : ℚ) :
    ℕ → K → K → K → Except PyErr K
  | 0, _, _, vmid => Except.ok vmid
  | n + 1, vmin, vmax, _ =>
    let vmid := (vmin + vmax) / 2
    let count := voxelCount pts vmid
    if target = 0 then Except.error PyErr.zeroDivisionError
    else if |(count : ℚ) - (target : ℚ)| / (target : ℚ) ≤ tol then Except.ok vmid
    else if (count : ℤ) > target then fvLoop pts target tol n vmid vmax vmid
    else fvLoop pts target tol n vmin vmid vmid

/-- The sequence of midpoints `vmid` visited by `fvLoop` (same recursion,
instrumented to record every candidate voxel size that the loop computed). -/
def fvTrace (pts : List Q3) (target : ℤ) (tol : ℚ) :
    ℕ → K → K → List K
  | 0, _, _ => []
  | n + 1, vmin, vmax =>
    let vmid := (vmin + vmax) / 2
    let count := voxelCount pts vmid
    vmid ::
      (if target = 0 then []
       else if |(count : ℚ) - (target : ℚ)| / (target : ℚ) ≤ tol then []
       else if (count : ℤ) > target then fvTrace pts target tol n vmid vmax
       else fvTrace pts target tol n vmin vmid)

end VoxelGrid

/-- `np.linalg.norm(points.max(0) - points.min(0))`: the length of the
bounding-box diagonal. -/
noncomputable def bboxDiag (pts : List Q3) : ℝ :=
  Real.sqrt
    (((npMaxQ (pts.map (fun p => p.1)) - npMinQ (pts.map (fun p => p.1)) : ℚ) : ℝ) ^ 2 +
     ((npMaxQ (pts.map (fun p => p.2.1)) - npMinQ (pts.map (fun p => p.2.1)) : ℚ) : ℝ) ^ 2 +
     ((npMaxQ (pts.map (fun p => p.2.2)) - npMinQ (pts.map (fun p => p.2.2)) : ℚ) : ℝ) ^ 2)

/-- `find_voxel_size_for_target(points, target, tol=0.05)`:
seeds `vmin = bbox_diag / (target ** (1/3) * 10)`, `vmax = bbox_diag / 2`
and runs the 50-iteration bisection loop.  The initial `vmid` slot is `0`;
the loop always overwrites it before it can be returned, since the budget
is positive. -/
noncomputable def find_voxel_size_for_target (pts : List Q3) (target : ℤ) (tol : ℚ) :
    Except PyErr ℝ :=
  fvLoop pts target tol 50
    (bboxDiag pts / ((target : ℝ) ^ ((1 : ℝ) / 3) * 10))
    (bboxDiag pts / 2) 0

/-! ## downsampler.py: downsample_to_target -/

/-- Python `int(q)`: truncation toward zero. -/
def pyInt (q : ℚ) : ℤ :=
  if 0 ≤ q then ⌊q⌋ else -⌊-q⌋

/-- `downsample_to_target(points, colors, target_count, target_size_bytes)`.
`if target_count is None and target_size_bytes:` — the truthiness test means
a `0` byte target is treated like `None`; the derived count is
`int(target_size_bytes / 14)`.  A missing target raises `ValueError`; a
target at least the current point count returns the input unchanged; any
other target is fed to the calibration and voxel-grid downsampling. -/
noncomputable def downsample_to_target (pts : List Q3) (cols : List N3)
    (target_count : Option ℤ) (target_size_bytes : Option ℤ) :
    Except PyErr (List Q3 × List N3) :=
  let tc : Option ℤ :=
    match target_count, target_size_bytes with
    | none, some s => if s ≠ 0 then some (pyInt ((s : ℚ) / 14)) else none
    | tc, _ => tc
  match tc with
  | none => Except.error PyErr.valueError
  | some t =>
    if (pts.length : ℤ) ≤ t then Except.ok (pts, cols)
    else
      match find_voxel_size_for_target pts t (1 / 20) with
      | Except.error e => Except.error e
      | Except.ok v =>
        let r := downsample_voxel_grid_nearest pts cols v
        Except.ok (r.1, r.2.1)

/-! ## reader.py: read_sog color decode -/

/-- The zeroth-order spherical-harmonics constant from `reader.py`. -/
def SH_C0 : ℚ := 0.28209479177387814

/-- `np.clip(x, lo, hi)`. -/
def npClip (x lo hi : ℚ) : ℚ := max lo (min x hi)

/-- `astype(np.uint8)` on a value already clipped into `[0, 255]`:
the cast truncates toward zero, which on a non-negative value is the floor. -/
def uint8OfFloat (x : ℚ) : ℕ := (⌊x⌋).toNat

/-- One decoded color channel of `read_sog`:
`np.clip((0.5 + SH_C0 * f_dc_i) * 255, 0, 255)` followed by the
`astype(np.uint8)` truncation. -/
def shChannel (f : ℚ) : ℕ :=
  uint8OfFloat (npClip ((1 / 2 + SH_C0 * f) * 255) 0 255)

/-- The decoded RGB triple of one spherical-harmonics vertex record. -/
def sogColor (f0 f1 f2 : ℚ) : N3 :=
  (shChannel f0, shChannel f1, shChannel f2)

/-! ## exporter.py: _create_glb -/

/-- One glTF accessor as populated by `_create_glb`. -/
structure GlbAccessor : Type where
  bufferView : ℕ
  componentType : ℕ
  count : ℕ
  accType : String
  maxVals : Option (List ℚ)
  minVals : Option (List ℚ)
deriving DecidableEq

/-- One glTF buffer view as populated by `_create_glb`. -/
structure GlbBufferView : Type where
  buffer : ℕ
  byteOffset : ℕ
  byteLength : ℕ
deriving DecidableEq

/-- The single mesh primitive: attribute name/accessor pairs and draw mode. -/
structure GlbPrimitive : Type where
  attributes : List (String × ℕ)
  mode : ℕ
deriving DecidableEq

/-- The GLB asset assembled by `_create_glb`.  The binary blob is modelled
as the list of 32-bit float scalars it contains, in order; each scalar
occupies 4 bytes in the serialized buffer. -/
structure Glb : Type where
  scene : ℕ
  sceneNodes : List ℕ
  nodeMesh : ℕ
  primitive : GlbPrimitive
  accessors : List GlbAccessor
  bufferViews : List GlbBufferView
  bufferByteLength : ℕ
  blob : List ℚ
deriving DecidableEq

/-- Byte length of a packed array of 32-bit floats (`len(arr.tobytes())`). -/
def floatBytesLen (scalars : List ℚ) : ℕ := 4 * scalars.length

/-- Row-major flattening of a list of triples into the scalar stream that
`tobytes()` serializes. -/
def flat3Q (l : List Q3) : List ℚ :=
  (l.map (fun p => [p.1, p.2.1, p.2.2])).flatten

/-- `colors.astype(np.float32) / 255.0`. -/
def colorsToFloat (cols : List N3) : List Q3 :=
  cols.map (fun c => ((c.1 : ℚ) / 255, (c.2.1 : ℚ) / 255, (c.2.2 : ℚ) / 255))

/-- `_create_glb(points, colors, path)`: the in-memory asset it serializes. -/
def create_glb (pts : List Q3) (cols : List N3) : Glb :=
  let colors_f := colorsToFloat cols
  let pos := flat3Q pts
  let col := flat3Q colors_f
  { scene := 0
    sceneNodes := [0]
    nodeMesh := 0
    primitive := { attributes := [("POSITION", 0), ("COLOR_0", 1)], mode := 0 }
    accessors :=
      [{ bufferView := 0, componentType := 5126, count := pts.length, accType := "VEC3",
         maxVals := some [npMaxQ (pts.map (fun p => p.1)),
                          npMaxQ (pts.map (fun p => p.2.1)),
                          npMaxQ (pts.map (fun p => p.2.2))],
         minVals := some [npMinQ (pts.map (fun p => p.1)),
                          npMinQ (pts.map (fun p => p.2.1)),
                          npMinQ (pts.map (fun p => p.2.2))] },
       { bufferView := 1, componentType := 5126, count := pts.length, accType := "VEC3",
         maxVals := none, minVals := none }]
    bufferViews :=
      [{ buffer := 0, byteOffset := 0, byteLength := floatBytesLen pos },
       { buffer := 0, byteOffset := floatBytesLen pos, byteLength := floatBytesLen col }]
    bufferByteLength := floatBytesLen pos + floatBytesLen col
    blob := pos ++ col }

/-! ## exporter.py: export_glb_with_draco -/

/-- The observable behaviour of one `draco_transcoder` invocation plus the
size `stat().st_size` reports for the written output. -/
structure DracoRun : Type where
  exitCode : ℤ
  outputSize : ℕ
deriving DecidableEq

/-- Filesystem state the export path touches: whether the temporary
intermediate `.glb` file currently exists. -/
structure ExpState : Type where
  tmpExists : Bool
deriving DecidableEq

/-- `subprocess.run([...], check=True)`: raises `CalledProcessError` on a
non-zero exit code, otherwise leaves the state unchanged. -/
def runTranscoder (exit : ℤ) (st : ExpState) : Except PyErr ExpState :=
  if exit = 0 then Except.ok st else Except.error PyErr.calledProcessError

/-- `export_glb_with_draco(points, colors, output)` control flow:
1. `tempfile.NamedTemporaryFile(suffix='.glb', delete=False)` creates the
   temporary file (it survives the `with` block because `delete=False`);
2. `_create_glb` writes it;
3. `subprocess.run(..., check=True)` invokes the transcoder — on a non-zero
   exit the raised `CalledProcessError` propagates immediately, and the
   function is exited before any further statement runs;
4. only on the success path does `Path(tmp_path).unlink(missing_ok=True)`
   run, followed by `return Path(output).stat().st_size`.
The returned pair is (result, final filesystem state). -/
def export_glb_with_draco (run : DracoRun) : Except PyErr ℕ × ExpState :=
  let st0 : ExpState := { tmpExists := true }
  let st1 := st0
  match runTranscoder run.exitCode st1 with
  | Except.error e => (Except.error e, st1)
  | Except.ok st2 => (Except.ok run.outputSize, { st2 with tmpExists := false })

/-! ## General helper lemmas -/

theorem foldl_max_spec (xs : List ℚ) : ∀ a : ℚ,
    a ≤ xs.foldl max a ∧ (∀ x ∈ xs, x ≤ xs.foldl max a) ∧
      (xs.foldl max a = a ∨ xs.foldl max a ∈ xs) := by
  induction xs with
  | nil => intro a; simp
  | cons y ys ih =>
    intro a
    have h := ih (max a y)
    refine ⟨le_trans (le_max_left a y) h.1, ?_, ?_⟩
    · intro x hx
      rcases List.mem_cons.mp hx with rfl | hx
      · exact le_trans (le_max_right a x) h.1
      · exact h.2.1 x hx
    · rw [List.foldl_cons]
      rcases h.2.2 with heq | hmem
      · rcases max_choice a y with hc | hc
        · exact Or.inl (by rw [heq, hc])
        · exact Or.inr (by rw [heq, hc]; exact List.mem_cons_self _ _)
      · exact Or.inr (List.mem_cons_of_mem _ hmem)

theorem foldl_min_spec (xs : List ℚ) : ∀ a : ℚ,
    xs.foldl min a ≤ a ∧ (∀ x ∈ xs, xs.foldl min a ≤ x) ∧
      (xs.foldl min a = a ∨ xs.foldl min a ∈ xs) := by
  induction xs with
  | nil => intro a; simp
  | cons y ys ih =>
    intro a
    have h := ih (min a y)
    refine ⟨le_trans h.1 (min_le_left a y), ?_, ?_⟩
    · intro x hx
      rcases List.mem_cons.mp hx with rfl | hx
      · exact le_trans h.1 (min_le_right a x)
      · exact h.2.1 x hx
    · rw [List.foldl_cons]
      rcases h.2.2 with heq | hmem
      · rcases min_choice a y with hc | hc
        · exact Or.inl (by rw [heq, hc])
        · exact Or.inr (by rw [heq, hc]; exact List.mem_cons_self _ _)
      · exact Or.inr (List.mem_cons_of_mem _ hmem)

theorem le_npMaxQ (l : List ℚ) (x : ℚ) (hx : x ∈ l) : x ≤ npMaxQ l := by
  match l with
  | [] => cases hx
  | y :: ys =>
    rcases List.mem_cons.mp hx with rfl | hx
    · exact (foldl_max_spec ys x).1
    · exact (foldl_max_spec ys y).2.1 x hx

theorem npMaxQ_mem (l : List ℚ) (h : l ≠ []) : npMaxQ l ∈ l := by
  match l with
  | [] => exact absurd rfl h
  | y :: ys =>
    show ys.foldl max y ∈ y :: ys
    rcases (foldl_max_spec ys y).2.2 with heq | hmem
    · rw [heq]; exact List.mem_cons_self _ _
    · exact List.mem_cons_of_mem _ hmem

theorem npMinQ_le (l : List ℚ) (x : ℚ) (hx : x ∈ l) : npMinQ l ≤ x := by
  match l with
  | [] => cases hx
  | y :: ys =>
    rcases List.mem_cons.mp hx with rfl | hx
    · exact (foldl_min_spec ys x).1
    · exact (foldl_min_spec ys y).2.1 x hx

theorem npMinQ_mem (l : List ℚ) (h : l ≠ []) : npMinQ l ∈ l := by
  match l with
  | [] => exact absurd rfl h
  | y :: ys =>
    show ys.foldl min y ∈ y :: ys
    rcases (foldl_min_spec ys y).2.2 with heq | hmem
    · rw [heq]; exact List.mem_cons_self _ _
    · exact List.mem_cons_of_mem _ hmem

theorem flat3Q_length (l : List Q3) : (flat3Q l).length = 3 * l.length := by
  induction l with
  | nil => rfl
  | cons p l ih =>
    simp only [flat3Q, List.map_cons, List.flatten_cons, List.length_append,
      List.length_cons, List.length_nil] at ih ⊢
    omega

/-! ## C6: spherical-harmonics color decode -/

/-- The clip-then-truncate channel decode equals clamping the floored
scaled value (shared helper for the C6 theorems). -/
theorem shChannel_clamp_floor (f : ℚ) :
    (shChannel f : ℤ) = max 0 (min 255 ⌊(1 / 2 + SH_C0 * f) * 255⌋) := by
  set x : ℚ := (1 / 2 + SH_C0 * f) * 255 with hx
  have h255 : ⌊(255 : ℚ)⌋ = 255 := by
    rw [show ((255 : ℚ)) = ((255 : ℤ) : ℚ) by norm_num, Int.floor_intCast]
  have hnn : (0 : ℚ) ≤ max 0 (min x 255) := le_max_left _ _
  have hfl0 : (0 : ℤ) ≤ ⌊max 0 (min x 255)⌋ := Int.le_floor.mpr (by exact_mod_cast hnn)
  rw [shChannel, uint8OfFloat, npClip, Int.toNat_of_nonneg hfl0]
  rcases le_total x 255 with hle | hge
  · have hfle : ⌊x⌋ ≤ 255 := h255 ▸ Int.floor_le_floor hle
    rw [min_eq_left hle, min_eq_right hfle]
    rcases le_total x 0 with hx0 | hx0
    · have hf0 : ⌊x⌋ ≤ 0 := by
        simpa using Int.floor_le_floor hx0
      rw [max_eq_left hx0, max_eq_left hf0]
      simp
    · have hf0 : (0 : ℤ) ≤ ⌊x⌋ := Int.le_floor.mpr (by exact_mod_cast hx0)
      rw [max_eq_right hx0, max_eq_right hf0]
  · have hfge : (255 : ℤ) ≤ ⌊x⌋ := Int.le_floor.mpr (by exact_mod_cast hge)
    rw [min_eq_right hge, min_eq_left hfge, max_eq_right (by norm_num : (0:ℚ) ≤ (255:ℚ)),
      max_eq_right (by norm_num : (0:ℤ) ≤ (255:ℤ)), h255]

/-- One concrete channel value: zero SH coefficient decodes to 127. -/
theorem shChannel_zero : shChannel 0 = 127 := by
  have h := shChannel_clamp_floor 0
  have hf : ⌊(1 / 2 + SH_C0 * 0) * 255⌋ = (127 : ℤ) := by
    norm_num [SH_C0]
  rw [hf] at h
  norm_num at h
  exact_mod_cast h

/-- C6 counterexample: the claim predicts RGB `(128, 128, 128)` for
`f_dc_0 = f_dc_1 = f_dc_2 = 0`, but the code decodes with
`np.clip(...).astype(np.uint8)`, whose cast truncates `127.5` to `127`,
so the decode yields `(127, 127, 127)`. -/
theorem c6_counterexample :
    sogColor 0 0 0 = (127, 127, 127) ∧ sogColor 0 0 0 ≠ (128, 128, 128) := by
  have h : sogColor 0 0 0 = (127, 127, 127) := by
    rw [sogColor, shChannel_zero]
  exact ⟨h, by rw [h]; simp⟩

/-- C6 (amended): each decoded 8-bit channel equals
`clamp(0, 255, trunc((0.5 + 0.28209479177387814 * f_dc_i) * 255))` — the
scaled value is truncated (floored), not rounded — and input
`f_dc_0 = f_dc_1 = f_dc_2 = 0` decodes to RGB `(127, 127, 127)`. -/
theorem c6_sh_decode_truncates :
    (∀ f : ℚ, (shChannel f : ℤ) = max 0 (min 255 ⌊(1 / 2 + SH_C0 * f) * 255⌋)) ∧
      sogColor 0 0 0 = (127, 127, 127) := by
  refine ⟨shChannel_clamp_floor, ?_⟩
  rw [sogColor, shChannel_zero]

/-! ## C3: Draco export temporary-file cleanup -/

/-- C3 counterexample: when the transcoder exits non-zero, the raised
`CalledProcessError` propagates before `Path(tmp_path).unlink` runs, so the
temporary intermediate file is left behind — the claim that it is deleted
on every exit path fails on this input. -/
theorem c3_counterexample :
    (export_glb_with_draco ⟨1, 0⟩).2.tmpExists = true ∧
      (export_glb_with_draco ⟨1, 0⟩).1 = Except.error PyErr.calledProcessError := by
  constructor <;> rfl

/-- C3 (amended): the temporary intermediate GLB file is deleted only on
the success path; when the transcoder exits non-zero (or any exception is
raised before the `unlink` statement) the file is left in place and the
error propagates. -/
theorem c3_draco_temp_cleanup (run : DracoRun) :
    (run.exitCode = 0 →
      export_glb_with_draco run = (Except.ok run.outputSize, ⟨false⟩)) ∧
    (run.exitCode ≠ 0 →
      export_glb_with_draco run = (Except.error PyErr.calledProcessError, ⟨true⟩)) := by
  constructor <;> intro h <;> simp [export_glb_with_draco, runTranscoder, h]

theorem c3_cleanup_witness :
    ((0 : ℤ) = 0 ∧
      export_glb_with_draco ⟨0, 42⟩ = (Except.ok 42, ⟨false⟩)) ∧
    ((1 : ℤ) ≠ 0 ∧
      export_glb_with_draco ⟨1, 7⟩ = (Except.error PyErr.calledProcessError, ⟨true⟩)) :=
  ⟨⟨rfl, (c3_draco_temp_cleanup ⟨0, 42⟩).1 rfl⟩,
   ⟨by decide, (c3_draco_temp_cleanup ⟨1, 7⟩).2 (by decide)⟩⟩

/-! ## C8: no-op when the target is at least the point count -/

/-- C8: with a resolved `target_count >= len(points)` the downsampler
returns the input arrays unchanged — same lists, same order, no error. -/
theorem c8_no_op_when_target_ge_n (pts : List Q3) (cols : List N3) (t : ℤ)
    (tsb : Option ℤ) (h : (pts.length : ℤ) ≤ t) :
    downsample_to_target pts cols (some t) tsb = Except.ok (pts, cols) := by
  simp [downsample_to_target, h]

theorem c8_witness :
    ((([((1:ℚ),(2:ℚ),(3:ℚ)), ((4:ℚ),(5:ℚ),(6:ℚ))] : List Q3).length : ℤ) ≤ 5) ∧
      downsample_to_target [((1:ℚ),(2:ℚ),(3:ℚ)), ((4:ℚ),(5:ℚ),(6:ℚ))]
        [(10,20,30), (40,50,60)] (some 5) none =
        Except.ok ([((1:ℚ),(2:ℚ),(3:ℚ)), ((4:ℚ),(5:ℚ),(6:ℚ))], [(10,20,30), (40,50,60)]) :=
  ⟨by decide, c8_no_op_when_target_ge_n _ _ _ _ (by decide)⟩

/-! ## C4: invalid-target handling in downsample_to_target -/

/-- C4 counterexample: `target_count = 0` with a non-empty point set is not
rejected with the invalid-target `ValueError`; the call proceeds into
`find_voxel_size_for_target`, whose first tolerance check divides by
`target` and raises `ZeroDivisionError`. -/
theorem c4_counterexample :
    downsample_to_target [((0:ℚ),(0:ℚ),(0:ℚ)), ((1:ℚ),(0:ℚ),(0:ℚ))]
        [(0,0,0), (0,0,0)] (some 0) none = Except.error PyErr.zeroDivisionError ∧
      PyErr.zeroDivisionError ≠ PyErr.valueError := by
  constructor
  · rfl
  · decide

/-- C4 (amended): `downsample_to_target` raises the invalid-target error
(`ValueError`) exactly when no target is resolvable (`target_count` absent
and `target_size_bytes` absent or zero/falsy); a resolved
`target_count <= 0` is *not* rejected — with a non-empty point set,
`target_count = 0` proceeds into calibration and raises
`ZeroDivisionError` at the first tolerance check instead. -/
theorem c4_invalid_target (pts : List Q3) (cols : List N3) :
    downsample_to_target pts cols none none = Except.error PyErr.valueError ∧
    downsample_to_target pts cols none (some 0) = Except.error PyErr.valueError ∧
    (∀ tsb : Option ℤ, pts ≠ [] →
      downsample_to_target pts cols (some 0) tsb = Except.error PyErr.zeroDivisionError) := by
  refine ⟨rfl, by simp [downsample_to_target], ?_⟩
  intro tsb hne
  have hlen : ¬ ((pts.length : ℤ) ≤ 0) := by
    have : 0 < pts.length := List.length_pos.mpr hne
    omega
  simp only [downsample_to_target, hlen, if_false]
  rw [find_voxel_size_for_target, show (50 : ℕ) = 49 + 1 from rfl]
  simp [fvLoop]

theorem c4_witness :
    (([((5:ℚ),(5:ℚ),(5:ℚ))] : List Q3) ≠ []) ∧
      downsample_to_target [((5:ℚ),(5:ℚ),(5:ℚ))] [(1,1,1)] (some 0) (some 99) =
        Except.error PyErr.zeroDivisionError ∧
      downsample_to_target [((5:ℚ),(5:ℚ),(5:ℚ))] [(1,1,1)] none none =
        Except.error PyErr.valueError :=
  ⟨by simp,
   (c4_invalid_target _ _).2.2 (some 99) (by simp),
   (c4_invalid_target _ _).1⟩

/-! ## C9: uncompressed GLB layout -/

/-- C9: the uncompressed GLB stores positions then colors back-to-back in
one buffer (positions as 32-bit float triples, colors as 32-bit float
triples with each 8-bit channel divided by 255), buffer view 0 at offset 0
with byte length `12 * N`, buffer view 1 at offset `12 * N` with byte
length `12 * N`, total buffer length `24 * N` exactly covering the blob,
one primitive in points draw mode (mode 0) with `POSITION` and `COLOR_0`
attributes, both accessors with `count = N`, and the `POSITION` accessor's
min/max equal to the componentwise minimum/maximum over all points. -/
theorem c9_glb_layout (pts : List Q3) (cols : List N3)
    (hne : pts ≠ []) (hlen : cols.length = pts.length) :
    (create_glb pts cols).bufferViews =
      [⟨0, 0, 12 * pts.length⟩, ⟨0, 12 * pts.length, 12 * pts.length⟩] ∧
    (create_glb pts cols).bufferByteLength = 24 * pts.length ∧
    (create_glb pts cols).blob = flat3Q pts ++ flat3Q (colorsToFloat cols) ∧
    floatBytesLen (create_glb pts cols).blob = 24 * pts.length ∧
    (create_glb pts cols).primitive = ⟨[("POSITION", 0), ("COLOR_0", 1)], 0⟩ ∧
    ((create_glb pts cols).accessors.map (fun a => a.count)) = [pts.length, pts.length] ∧
    ∃ mx1 mx2 mx3 mn1 mn2 mn3 : ℚ,
      ((create_glb pts cols).accessors.getD 0 ⟨0, 0, 0, "", none, none⟩).maxVals =
          some [mx1, mx2, mx3] ∧
      ((create_glb pts cols).accessors.getD 0 ⟨0, 0, 0, "", none, none⟩).minVals =
          some [mn1, mn2, mn3] ∧
      (∀ p ∈ pts, mn1 ≤ p.1 ∧ p.1 ≤ mx1 ∧ mn2 ≤ p.2.1 ∧ p.2.1 ≤ mx2 ∧
        mn3 ≤ p.2.2 ∧ p.2.2 ≤ mx3) ∧
      mx1 ∈ pts.map (fun p => p.1) ∧ mx2 ∈ pts.map (fun p => p.2.1) ∧
      mx3 ∈ pts.map (fun p => p.2.2) ∧
      mn1 ∈ pts.map (fun p => p.1) ∧ mn2 ∈ pts.map (fun p => p.2.1) ∧
      mn3 ∈ pts.map (fun p => p.2.2) := by
  have hfl : (flat3Q pts).length = 3 * pts.length := flat3Q_length pts
  have hflc : (flat3Q (colorsToFloat cols)).length = 3 * pts.length := by
    rw [flat3Q_length, colorsToFloat, List.length_map, hlen]
  have hmapne : ∀ f : Q3 → ℚ, pts.map f ≠ [] := by
    intro f h
    exact hne (List.map_eq_nil_iff.mp h)
  refine ⟨?_, ?_, rfl, ?_, rfl, rfl, ?_⟩
  · simp only [create_glb, floatBytesLen, hfl, hflc]
    rw [show 4 * (3 * pts.length) = 12 * pts.length by ring]
  · simp only [create_glb, floatBytesLen, hfl, hflc]
    omega
  · simp only [create_glb, floatBytesLen, List.length_append, hfl, hflc]
    omega
  · refine ⟨npMaxQ (pts.map (fun p => p.1)), npMaxQ (pts.map (fun p => p.2.1)),
      npMaxQ (pts.map (fun p => p.2.2)), npMinQ (pts.map (fun p => p.1)),
      npMinQ (pts.map (fun p => p.2.1)), npMinQ (pts.map (fun p => p.2.2)),
      ?_, ?_, ?_, npMaxQ_mem _ (hmapne _), npMaxQ_mem _ (hmapne _),
      npMaxQ_mem _ (hmapne _), npMinQ_mem _ (hmapne _), npMinQ_mem _ (hmapne _),
      npMinQ_mem _ (hmapne _)⟩
    · simp [create_glb]
    · simp [create_glb]
    intro p hp
    exact ⟨npMinQ_le _ _ (List.mem_map_of_mem _ hp),
      le_npMaxQ _ _ (List.mem_map_of_mem _ hp),
      npMinQ_le _ _ (List.mem_map_of_mem _ hp),
      le_npMaxQ _ _ (List.mem_map_of_mem _ hp),
      npMinQ_le _ _ (List.mem_map_of_mem _ hp),
      le_npMaxQ _ _ (List.mem_map_of_mem _ hp)⟩

/-- Concrete point set used by witnesses. -/
def wPts : List Q3 := [(1, 2, 3), (0, 5, 0)]

/-- Concrete color set used by witnesses. -/
def wCols : List N3 := [(255, 0, 0), (0, 255, 0)]

theorem c9_witness :
    (wPts ≠ [] ∧ wCols.length = wPts.length) ∧
      ((create_glb wPts wCols).bufferViews =
        [⟨0, 0, 12 * wPts.length⟩, ⟨0, 12 * wPts.length, 12 * wPts.length⟩] ∧
      (create_glb wPts wCols).bufferByteLength = 24 * wPts.length ∧
      (create_glb wPts wCols).blob = flat3Q wPts ++ flat3Q (colorsToFloat wCols) ∧
      floatBytesLen (create_glb wPts wCols).blob = 24 * wPts.length ∧
      (create_glb wPts wCols).primitive = ⟨[("POSITION", 0), ("COLOR_0", 1)], 0⟩ ∧
      ((create_glb wPts wCols).accessors.map (fun a => a.count)) =
        [wPts.length, wPts.length] ∧
      ∃ mx1 mx2 mx3 mn1 mn2 mn3 : ℚ,
        ((create_glb wPts wCols).accessors.getD 0 ⟨0, 0, 0, "", none, none⟩).maxVals =
            some [mx1, mx2, mx3] ∧
        ((create_glb wPts wCols).accessors.getD 0 ⟨0, 0, 0, "", none, none⟩).minVals =
            some [mn1, mn2, mn3] ∧
        (∀ p ∈ wPts, mn1 ≤ p.1 ∧ p.1 ≤ mx1 ∧ mn2 ≤ p.2.1 ∧ p.2.1 ≤ mx2 ∧
          mn3 ≤ p.2.2 ∧ p.2.2 ≤ mx3) ∧
        mx1 ∈ wPts.map (fun p => p.1) ∧ mx2 ∈ wPts.map (fun p => p.2.1) ∧
        mx3 ∈ wPts.map (fun p => p.2.2) ∧
        mn1 ∈ wPts.map (fun p => p.1) ∧ mn2 ∈ wPts.map (fun p => p.2.1) ∧
        mn3 ∈ wPts.map (fun p => p.2.2)) :=
  ⟨⟨by simp [wPts], by simp [wPts, wCols]⟩,
   c9_glb_layout wPts wCols (by simp [wPts]) (by simp [wPts, wCols])⟩

/-! ## List machinery: indexing, first-minimum folds, runs of equal keys -/

theorem map_getD_range {α : Type} (l : List α) (d : α) :
    (List.range l.length).map (fun i => l.getD i d) = l := by
  apply List.ext_getElem
  · simp
  · intro n h1 h2
    simp only [List.getElem_map, List.getElem_range]
    exact l.getD_eq_getElem d h2

/-- The fold used by the per-voxel selection: running first minimum of `f`
(strict improvement only, so ties keep the earlier element, like
`np.argmin`). -/
def pickFold (f : ℕ → ℚ) (i : ℕ) (rest : List ℕ) : ℕ :=
  rest.foldl (fun best j => if f j < f best then j else best) i

theorem pickFold_spec (f : ℕ → ℚ) : ∀ (rest : List ℕ) (i : ℕ),
    (pickFold f i rest = i ∨ pickFold f i rest ∈ rest) ∧
    f (pickFold f i rest) ≤ f i ∧
    (∀ y ∈ rest, f (pickFold f i rest) ≤ f y) ∧
    (f (pickFold f i rest) = f i → pickFold f i rest = i) := by
  intro rest
  induction rest with
  | nil => intro i; simp [pickFold]
  | cons x xs ih =>
    intro i
    by_cases h : f x < f i
    · have hstep : pickFold f i (x :: xs) = pickFold f x xs := by
        simp [pickFold, List.foldl_cons, h]
      obtain ⟨hmem, hle, hall, htie⟩ := ih x
      rw [hstep]
      refine ⟨?_, le_trans hle (le_of_lt h), ?_, ?_⟩
      · rcases hmem with heq | hm
        · exact Or.inr (by rw [heq]; exact List.mem_cons_self _ _)
        · exact Or.inr (List.mem_cons_of_mem _ hm)
      · intro y hy
        rcases List.mem_cons.mp hy with rfl | hy
        · exact hle
        · exact hall y hy
      · intro hfe
        exact absurd hfe (ne_of_lt (lt_of_le_of_lt hle h))
    · have hstep : pickFold f i (x :: xs) = pickFold f i xs := by
        simp [pickFold, List.foldl_cons, h]
      obtain ⟨hmem, hle, hall, htie⟩ := ih i
      rw [hstep]
      refine ⟨?_, hle, ?_, htie⟩
      · rcases hmem with heq | hm
        · exact Or.inl heq
        · exact Or.inr (List.mem_cons_of_mem _ hm)
      · intro y hy
        rcases List.mem_cons.mp hy with rfl | hy
        · exact le_trans hle (not_lt.mp h)
        · exact hall y hy

/-- The fold's result is the FIRST minimum in list order (`np.argmin`
semantics): the list splits around the result, and everything before it is
strictly worse. -/
theorem pickFold_first_pos (f : ℕ → ℚ) : ∀ (rest : List ℕ) (i : ℕ),
    ∃ l1 l2, i :: rest = l1 ++ pickFold f i rest :: l2 ∧
      ∀ y ∈ l1, f (pickFold f i rest) < f y := by
  intro rest
  induction rest with
  | nil =>
    intro i
    exact ⟨[], [], rfl, by intro y hy; cases hy⟩
  | cons x xs ih =>
    intro i
    by_cases h : f x < f i
    · have hstep : pickFold f i (x :: xs) = pickFold f x xs := by
        simp [pickFold, List.foldl_cons, h]
      obtain ⟨l1, l2, hsplit, hstrict⟩ := ih x
      obtain ⟨_, hle, _, _⟩ := pickFold_spec f xs x
      rw [hstep]
      refine ⟨i :: l1, l2, ?_, ?_⟩
      · rw [List.cons_append, ← hsplit]
      · intro y hy
        rcases List.mem_cons.mp hy with rfl | hy
        · exact lt_of_le_of_lt hle h
        · exact hstrict y hy
    · have hstep : pickFold f i (x :: xs) = pickFold f i xs := by
        simp [pickFold, List.foldl_cons, h]
      obtain ⟨l1, l2, hsplit, hstrict⟩ := ih i
      rw [hstep]
      rcases l1 with _ | ⟨a, l1'⟩
      · rw [List.nil_append] at hsplit
        injection hsplit with h1 h2
        refine ⟨[], x :: xs, ?_, ?_⟩
        · rw [List.nil_append, ← h1]
        · intro y hy; cases hy
      · rw [List.cons_append] at hsplit
        injection hsplit with h1 h2
        have hpi : f (pickFold f i xs) < f i := by
          have hfa := hstrict a (List.mem_cons_self _ _)
          rwa [← h1] at hfa
        refine ⟨i :: x :: l1', l2, ?_, ?_⟩
        · rw [List.cons_append, List.cons_append, ← h2]
        · intro y hy
          rcases List.mem_cons.mp hy with rfl | hy2
          · exact hpi
          · rcases List.mem_cons.mp hy2 with rfl | hy3
            · exact lt_of_lt_of_le hpi (not_lt.mp h)
            · exact hstrict y (List.mem_cons_of_mem _ hy3)

/-- `groupRuns` splits its input back into the original list. -/
theorem groupRuns_flatten (k : ℕ → ℤ) (l : List ℕ) :
    (groupRuns k l).flatten = l := by
  have H : ∀ n (l : List ℕ), l.length ≤ n → (groupRuns k l).flatten = l := by
    intro n
    induction n with
    | zero =>
      intro l h
      have : l = [] := List.length_eq_zero.mp (Nat.le_zero.mp h)
      simp [this, groupRuns]
    | succ n ih =>
      intro l hlen
      match l with
      | [] => simp [groupRuns]
      | x :: xs =>
        have hdrop : (xs.dropWhile (fun y => decide (k y = k x))).length ≤ n := by
          have h1 := (List.dropWhile_sublist (l := xs)
            (fun y => decide (k y = k x))).length_le
          have h2 : xs.length + 1 ≤ n + 1 := by simpa using hlen
          omega
        simp only [groupRuns, List.flatten_cons, ih _ hdrop]
        rw [List.cons_append, List.takeWhile_append_dropWhile]
  exact H l.length l le_rfl

/-- Each run is nonempty, its members all share the key of its head, and it
is a sublist of the input. -/
theorem groupRuns_shape (k : ℕ → ℤ) (l : List ℕ) :
    ∀ g ∈ groupRuns k l, ∃ x t, g = x :: t ∧ (∀ y ∈ g, k y = k x) ∧ g.Sublist l := by
  have H : ∀ n (l : List ℕ), l.length ≤ n →
      ∀ g ∈ groupRuns k l, ∃ x t, g = x :: t ∧ (∀ y ∈ g, k y = k x) ∧ g.Sublist l := by
    intro n
    induction n with
    | zero =>
      intro l h
      have : l = [] := List.length_eq_zero.mp (Nat.le_zero.mp h)
      simp [this, groupRuns]
    | succ n ih =>
      intro l hlen g hg
      match l with
      | [] => simp [groupRuns] at hg
      | x :: xs =>
        simp only [groupRuns, List.mem_cons] at hg
        rcases hg with rfl | hg
        · refine ⟨x, _, rfl, ?_, ?_⟩
          · intro y hy
            rcases List.mem_cons.mp hy with rfl | hy
            · rfl
            · simpa using List.mem_takeWhile_imp hy
          · exact (List.takeWhile_sublist _).cons_cons x
        · have hdrop : (xs.dropWhile (fun y => decide (k y = k x))).length ≤ n := by
            have h1 := (List.dropWhile_sublist (l := xs)
              (fun y => decide (k y = k x))).length_le
            have h2 : xs.length + 1 ≤ n + 1 := by simpa using hlen
            omega
          obtain ⟨a, t, hat, hkeys, hsub⟩ := ih _ hdrop g hg
          refine ⟨a, t, hat, hkeys, ?_⟩
          exact hsub.trans ((List.dropWhile_sublist _).trans (List.sublist_cons_self _ _))
  exact H l.length l le_rfl

/-! ## Sorting lemmas for the argsort model -/

theorem lexLe_trans (k : ℕ → ℤ) (a b c : ℕ)
    (hab : lexLe k a b = true) (hbc : lexLe k b c = true) : lexLe k a c = true := by
  simp only [lexLe, Bool.or_eq_true, Bool.and_eq_true, decide_eq_true_eq] at *
  rcases hab with h1 | ⟨h1, h1'⟩ <;> rcases hbc with h2 | ⟨h2, h2'⟩
  · exact Or.inl (lt_trans h1 h2)
  · exact Or.inl (h2 ▸ h1)
  · exact Or.inl (h1 ▸ h2)
  · exact Or.inr ⟨h1.trans h2, le_trans h1' h2'⟩

theorem lexLe_total (k : ℕ → ℤ) (a b : ℕ) :
    (lexLe k a b || lexLe k b a) = true := by
  simp only [lexLe, Bool.or_eq_true, Bool.and_eq_true, decide_eq_true_eq]
  rcases lt_trichotomy (k a) (k b) with h | h | h
  · exact Or.inl (Or.inl h)
  · rcases Nat.le_total a b with h' | h'
    · exact Or.inl (Or.inr ⟨h, h'⟩)
    · exact Or.inr (Or.inr ⟨h.symm, h'⟩)
  · exact Or.inr (Or.inl h)

section SortedIdx

variable {K : Type} [LinearOrderedField K] [FloorRing K]

theorem sortedIdx_perm (v : K) (pts : List Q3) :
    (sortedIdx v pts).Perm (List.range pts.length) :=
  List.mergeSort_perm _ _

theorem sortedIdx_nodup (v : K) (pts : List Q3) : (sortedIdx v pts).Nodup :=
  (sortedIdx_perm v pts).symm.nodup (List.nodup_range _)

theorem mem_sortedIdx (v : K) (pts : List Q3) (i : ℕ) :
    i ∈ sortedIdx v pts ↔ i < pts.length := by
  rw [(sortedIdx_perm v pts).mem_iff, List.mem_range]

theorem sortedIdx_pairwise (v : K) (pts : List Q3) :
    (sortedIdx v pts).Pairwise (fun i j => lexLe (voxelKeyFn v pts) i j = true) :=
  List.sorted_mergeSort (lexLe_trans _) (lexLe_total _) _

/-- Along the sorted index array, keys are nondecreasing. -/
theorem sortedIdx_keys_mono (v : K) (pts : List Q3) :
    (sortedIdx v pts).Pairwise
      (fun i j => voxelKeyFn v pts i ≤ voxelKeyFn v pts j) := by
  refine (sortedIdx_pairwise v pts).imp ?_
  intro i j h
  simp only [lexLe, Bool.or_eq_true, Bool.and_eq_true, decide_eq_true_eq] at h
  rcases h with h | ⟨h, _⟩
  · exact le_of_lt h
  · exact le_of_eq h

/-- The executable resolution `sortedIdx` is one admissible outcome of
`np.argsort` on the voxel keys. -/
theorem sortedIdx_isArgsort (v : K) (pts : List Q3) :
    IsArgsort (voxelKeyFn v pts) pts.length (sortedIdx v pts) :=
  ⟨sortedIdx_perm v pts, sortedIdx_keys_mono v pts⟩

end SortedIdx

/-- In a list with nondecreasing keys whose members all have key at least
`k x`, every member of the suffix dropped by the first run has key
strictly greater than `k x`. -/
theorem dropWhile_key_gt (k : ℕ → ℤ) (x : ℕ) (xs : List ℕ)
    (hall : ∀ z ∈ xs, k x ≤ k z)
    (hp : xs.Pairwise (fun i j => k i ≤ k j)) :
    ∀ z ∈ xs.dropWhile (fun y => decide (k y = k x)), k x < k z := by
  induction xs with
  | nil => intro z hz; simp at hz
  | cons w ws ih =>
    intro z hz
    by_cases hw : k w = k x
    · rw [List.dropWhile_cons, if_pos (by simp [hw])] at hz
      exact ih (fun z hz => hall z (List.mem_cons_of_mem _ hz))
        (List.pairwise_cons.mp hp).2 z hz
    · rw [List.dropWhile_cons, if_neg (by simp [hw])] at hz
      have hxw : k x < k w :=
        lt_of_le_of_ne (hall w (List.mem_cons_self _ _)) (fun h => hw h.symm)
      rcases List.mem_cons.mp hz with rfl | hz2
      · exact hxw
      · exact lt_of_lt_of_le hxw ((List.pairwise_cons.mp hp).1 z hz2)

/-- A constant-key list forms a single run. -/
theorem groupRuns_const_keys (k : ℕ → ℤ) (l : List ℕ) (hne : l ≠ [])
    (hconst : ∀ y ∈ l, ∀ x ∈ l, k y = k x) : groupRuns k l = [l] := by
  match l with
  | [] => exact absurd rfl hne
  | x :: xs =>
    have ht : xs.takeWhile (fun y => decide (k y = k x)) = xs :=
      List.takeWhile_eq_self_iff.mpr (fun a ha => by
        simp [hconst a (List.mem_cons_of_mem _ ha) x (List.mem_cons_self _ _)])
    have hd : xs.dropWhile (fun y => decide (k y = k x)) = [] :=
      List.dropWhile_eq_nil_iff.mpr (fun a ha => by
        simp [hconst a (List.mem_cons_of_mem _ ha) x (List.mem_cons_self _ _)])
    simp only [groupRuns, ht, hd]

/-- On a list whose keys are nondecreasing, the runs of `groupRuns` cover
each occurring key completely: any element of the list whose key matches
the head of a run belongs to that run. -/
theorem groupRuns_complete (k : ℕ → ℤ) (l : List ℕ)
    (hs : l.Pairwise (fun i j => k i ≤ k j)) :
    ∀ g ∈ groupRuns k l, ∀ y ∈ l, (∀ x t, g = x :: t → k y = k x) → y ∈ g := by
  have H : ∀ n (l : List ℕ), l.length ≤ n → l.Pairwise (fun i j => k i ≤ k j) →
      ∀ g ∈ groupRuns k l, ∀ y ∈ l, (∀ x t, g = x :: t → k y = k x) → y ∈ g := by
    intro n
    induction n with
    | zero =>
      intro l h _
      have : l = [] := List.length_eq_zero.mp (Nat.le_zero.mp h)
      simp [this, groupRuns]
    | succ n ih =>
      intro l hlen hp g hg y hy hkey
      match l with
      | [] => simp [groupRuns] at hg
      | x :: xs =>
        have hpc := List.pairwise_cons.mp hp
        have hgt := dropWhile_key_gt k x xs hpc.1 hpc.2
        have hy2 : y ∈ xs.takeWhile (fun y => decide (k y = k x)) ++
            xs.dropWhile (fun y => decide (k y = k x)) → y ∈ xs := by
          rw [List.takeWhile_append_dropWhile]; exact id
        simp only [groupRuns, List.mem_cons] at hg
        rcases hg with rfl | hg
        · -- g is the first run
          have hky : k y = k x := hkey x _ rfl
          rcases List.mem_cons.mp hy with heq | hyx
          · rw [heq]; exact List.mem_cons_self _ _
          · refine List.mem_cons_of_mem _ ?_
            have hsplit : y ∈ xs.takeWhile (fun y => decide (k y = k x)) ++
                xs.dropWhile (fun y => decide (k y = k x)) := by
              rw [List.takeWhile_append_dropWhile]; exact hyx
            rcases List.mem_append.mp hsplit with htk | hdr
            · exact htk
            · exact absurd hky (by have := hgt y hdr; omega)
        · -- g is a later run
          have hdrop : (xs.dropWhile (fun y => decide (k y = k x))).length ≤ n := by
            have h1 := (List.dropWhile_sublist (l := xs)
              (fun y => decide (k y = k x))).length_le
            have h2 : xs.length + 1 ≤ n + 1 := by simpa using hlen
            omega
          have hpd : (xs.dropWhile (fun y => decide (k y = k x))).Pairwise
              (fun i j => k i ≤ k j) :=
            hpc.2.sublist (List.dropWhile_sublist _)
          obtain ⟨a, t, hat, _, _⟩ := groupRuns_shape k _ g hg
          have hamem : a ∈ xs.dropWhile (fun y => decide (k y = k x)) := by
            have ha1 : a ∈ g := hat ▸ List.mem_cons_self _ _
            have ha2 : a ∈ (groupRuns k
                (xs.dropWhile (fun y => decide (k y = k x)))).flatten :=
              List.mem_flatten.mpr ⟨g, hg, ha1⟩
            rwa [groupRuns_flatten] at ha2
          have hkxa : k x < k a := hgt a hamem
          have hky : k y = k a := hkey a t hat
          have hymem : y ∈ xs.dropWhile (fun y => decide (k y = k x)) := by
            rcases List.mem_cons.mp hy with heq | hyx
            · exfalso; rw [heq] at hky; omega
            · have hsplit : y ∈ xs.takeWhile (fun y => decide (k y = k x)) ++
                  xs.dropWhile (fun y => decide (k y = k x)) := by
                rw [List.takeWhile_append_dropWhile]; exact hyx
              rcases List.mem_append.mp hsplit with htk | hdr
              · exfalso
                have := List.mem_takeWhile_imp htk
                simp only [decide_eq_true_eq] at this
                omega
              · exact hdr
          exact ih _ hdrop hpd g hg y hymem hkey
  exact H l.length l le_rfl hs

/-- On a list whose keys are nondecreasing, the number of runs equals the
number of distinct keys. -/
theorem groupRuns_length_eq (k : ℕ → ℤ) (l : List ℕ)
    (hs : l.Pairwise (fun i j => k i ≤ k j)) :
    (groupRuns k l).length = (l.map k).toFinset.card := by
  have H : ∀ n (l : List ℕ), l.length ≤ n → l.Pairwise (fun i j => k i ≤ k j) →
      (groupRuns k l).length = (l.map k).toFinset.card := by
    intro n
    induction n with
    | zero =>
      intro l h _
      have : l = [] := List.length_eq_zero.mp (Nat.le_zero.mp h)
      simp [this, groupRuns]
    | succ n ih =>
      intro l hlen hp
      match l with
      | [] => simp [groupRuns]
      | x :: xs =>
        have hpc := List.pairwise_cons.mp hp
        have hgt := dropWhile_key_gt k x xs hpc.1 hpc.2
        have hdrop : (xs.dropWhile (fun y => decide (k y = k x))).length ≤ n := by
          have h1 := (List.dropWhile_sublist (l := xs)
            (fun y => decide (k y = k x))).length_le
          have h2 : xs.length + 1 ≤ n + 1 := by simpa using hlen
          omega
        have hpd : (xs.dropWhile (fun y => decide (k y = k x))).Pairwise
            (fun i j => k i ≤ k j) :=
          hpc.2.sublist (List.dropWhile_sublist _)
        simp only [groupRuns, List.length_cons]
        rw [ih _ hdrop hpd]
        have hset : ((x :: xs).map k).toFinset =
            insert (k x)
              (((xs.dropWhile (fun y => decide (k y = k x))).map k).toFinset) := by
          ext a
          simp only [List.map_cons, List.toFinset_cons, Finset.mem_insert,
            List.mem_toFinset, List.mem_map]
          constructor
          · rintro (rfl | ⟨z, hz, rfl⟩)
            · exact Or.inl rfl
            · have hsplit : z ∈ xs.takeWhile (fun y => decide (k y = k x)) ++
                  xs.dropWhile (fun y => decide (k y = k x)) := by
                rw [List.takeWhile_append_dropWhile]; exact hz
              rcases List.mem_append.mp hsplit with ht | hd
              · exact Or.inl (by simpa using List.mem_takeWhile_imp ht)
              · exact Or.inr ⟨z, hd, rfl⟩
          · rintro (rfl | ⟨z, hz, rfl⟩)
            · exact Or.inl rfl
            · exact Or.inr ⟨z, (List.dropWhile_sublist _).subset hz, rfl⟩
        have hnm : k x ∉
            ((xs.dropWhile (fun y => decide (k y = k x))).map k).toFinset := by
          simp only [List.mem_toFinset, List.mem_map, not_exists]
          rintro z ⟨hz, hkz⟩
          have := hgt z hz
          omega
        rw [hset, Finset.card_insert_of_not_mem hnm]
  exact H l.length l le_rfl hs

/-- Picking one member out of each of a family of lists whose concatenation
has no duplicates yields pairwise distinct picks. -/
theorem nodup_map_pick (pick : List ℕ → ℕ) :
    ∀ gs : List (List ℕ), (∀ g ∈ gs, pick g ∈ g) → gs.flatten.Nodup →
      (gs.map pick).Nodup := by
  intro gs
  induction gs with
  | nil => simp
  | cons g gs ih =>
    intro hin hnd
    rw [List.flatten_cons, List.nodup_append] at hnd
    obtain ⟨hg, hflat, hdisj⟩ := hnd
    simp only [List.map_cons, List.nodup_cons]
    constructor
    · intro hmem
      obtain ⟨g1, hg1, heq⟩ := List.mem_map.mp hmem
      have h1 : pick g ∈ g := hin g (List.mem_cons_self _ _)
      have h2 : pick g1 ∈ gs.flatten :=
        List.mem_flatten.mpr ⟨g1, hg1, hin g1 (List.mem_cons_of_mem _ hg1)⟩
      rw [heq] at h2
      exact hdisj h1 h2
    · exact ih (fun g hg => hin g (List.mem_cons_of_mem _ hg)) hflat

/-! ## Injectivity of the row-major voxel-key linearization -/

theorem intDigit_unique (C q q1 c c1 : ℤ) (hC : 0 < C)
    (hc : 0 ≤ c) (hcC : c < C) (hc1 : 0 ≤ c1) (hc1C : c1 < C)
    (h : q * C + c = q1 * C + c1) : q = q1 ∧ c = c1 := by
  have hqc : (q - q1) * C = c1 - c := by linear_combination h
  have hq : q = q1 := by
    by_contra hne
    have h1 : 1 ≤ |q - q1| := Int.one_le_abs (sub_ne_zero.mpr hne)
    have h2 : C ≤ |q - q1| * C := by
      calc C = 1 * C := (one_mul C).symm
        _ ≤ |q - q1| * C := mul_le_mul_of_nonneg_right h1 (le_of_lt hC)
    have h3 : |c1 - c| = |q - q1| * C := by rw [← hqc, abs_mul, abs_of_pos hC]
    have h4 : |c1 - c| < C := abs_sub_lt_iff.mpr ⟨by omega, by omega⟩
    linarith
  exact ⟨hq, by rw [hq] at h; linarith⟩

/-- The exact (non-wrapping) row-major linearization is injective on
triples whose last two components lie in the `[0, max_idx)` ranges. -/
theorem voxelLinExact_inj (m t t1 : I3)
    (h21 : 0 ≤ t.2.1) (h21m : t.2.1 ≤ m.2.1) (h22 : 0 ≤ t.2.2) (h22m : t.2.2 ≤ m.2.2)
    (h211 : 0 ≤ t1.2.1) (h21m1 : t1.2.1 ≤ m.2.1) (h221 : 0 ≤ t1.2.2)
    (h22m1 : t1.2.2 ≤ m.2.2) (h : voxelLinExact m t = voxelLinExact m t1) : t = t1 := by
  have hC : (0 : ℤ) < m.2.2 + 1 := by omega
  have hB : (0 : ℤ) < m.2.1 + 1 := by omega
  have h1 : (t.1 * (m.2.1 + 1) + t.2.1) * (m.2.2 + 1) + t.2.2 =
      (t1.1 * (m.2.1 + 1) + t1.2.1) * (m.2.2 + 1) + t1.2.2 := by
    simp only [voxelLinExact] at h
    linear_combination h
  obtain ⟨hq, hc⟩ := intDigit_unique (m.2.2 + 1) _ _ _ _ hC h22 (by omega) h221
    (by omega) h1
  obtain ⟨ha, hb⟩ := intDigit_unique (m.2.1 + 1) _ _ _ _ hB h21 (by omega) h211
    (by omega) hq
  exact Prod.ext_iff.mpr ⟨ha, Prod.ext_iff.mpr ⟨hb, hc⟩⟩

theorem foldl_imin3_spec (xs : List I3) : ∀ a : I3,
    ((xs.foldl imin3 a).1 ≤ a.1 ∧ (xs.foldl imin3 a).2.1 ≤ a.2.1 ∧
      (xs.foldl imin3 a).2.2 ≤ a.2.2) ∧
    ∀ x ∈ xs, (xs.foldl imin3 a).1 ≤ x.1 ∧ (xs.foldl imin3 a).2.1 ≤ x.2.1 ∧
      (xs.foldl imin3 a).2.2 ≤ x.2.2 := by
  induction xs with
  | nil => intro a; simp
  | cons y ys ih =>
    intro a
    have h := ih (imin3 a y)
    rw [List.foldl_cons]
    refine ⟨?_, ?_⟩
    · exact ⟨le_trans h.1.1 (min_le_left _ _), le_trans h.1.2.1 (min_le_left _ _),
        le_trans h.1.2.2 (min_le_left _ _)⟩
    · intro x hx
      rcases List.mem_cons.mp hx with rfl | hx
      · exact ⟨le_trans h.1.1 (min_le_right _ _), le_trans h.1.2.1 (min_le_right _ _),
          le_trans h.1.2.2 (min_le_right _ _)⟩
      · exact h.2 x hx

theorem foldl_imax3_spec (xs : List I3) : ∀ a : I3,
    (a.1 ≤ (xs.foldl imax3 a).1 ∧ a.2.1 ≤ (xs.foldl imax3 a).2.1 ∧
      a.2.2 ≤ (xs.foldl imax3 a).2.2) ∧
    ∀ x ∈ xs, x.1 ≤ (xs.foldl imax3 a).1 ∧ x.2.1 ≤ (xs.foldl imax3 a).2.1 ∧
      x.2.2 ≤ (xs.foldl imax3 a).2.2 := by
  induction xs with
  | nil => intro a; simp
  | cons y ys ih =>
    intro a
    have h := ih (imax3 a y)
    rw [List.foldl_cons]
    refine ⟨?_, ?_⟩
    · exact ⟨le_trans (le_max_left _ _) h.1.1, le_trans (le_max_left _ _) h.1.2.1,
        le_trans (le_max_left _ _) h.1.2.2⟩
    · intro x hx
      rcases List.mem_cons.mp hx with rfl | hx
      · exact ⟨le_trans (le_max_right _ _) h.1.1, le_trans (le_max_right _ _) h.1.2.1,
          le_trans (le_max_right _ _) h.1.2.2⟩
      · exact h.2 x hx

theorem npMin3_le (l : List I3) (x : I3) (hx : x ∈ l) :
    (npMin3 l).1 ≤ x.1 ∧ (npMin3 l).2.1 ≤ x.2.1 ∧ (npMin3 l).2.2 ≤ x.2.2 := by
  match l with
  | [] => cases hx
  | y :: ys =>
    show (ys.foldl imin3 y).1 ≤ x.1 ∧ _ ∧ _
    rcases List.mem_cons.mp hx with rfl | hx
    · exact (foldl_imin3_spec ys x).1
    · exact (foldl_imin3_spec ys y).2 x hx

theorem le_npMax3 (l : List I3) (x : I3) (hx : x ∈ l) :
    x.1 ≤ (npMax3 l).1 ∧ x.2.1 ≤ (npMax3 l).2.1 ∧ x.2.2 ≤ (npMax3 l).2.2 := by
  match l with
  | [] => cases hx
  | y :: ys =>
    show x.1 ≤ (ys.foldl imax3 y).1 ∧ _ ∧ _
    rcases List.mem_cons.mp hx with rfl | hx
    · exact (foldl_imax3_spec ys x).1
    · exact (foldl_imax3_spec ys y).2 x hx

theorem perm_toFinset_eq {α : Type} [DecidableEq α] {l1 l2 : List α}
    (h : l1.Perm l2) : l1.toFinset = l2.toFinset := by
  ext a
  simp [List.mem_toFinset, h.mem_iff]

theorem map_toFinset_image {α β : Type} [DecidableEq α] [DecidableEq β]
    (f : α → β) (l : List α) : (l.map f).toFinset = l.toFinset.image f := by
  ext a
  simp

section KeyStructure

variable {K : Type} [LinearOrderedField K] [FloorRing K]

theorem voxelKeys_length (v : K) (pts : List Q3) :
    (voxelKeys v pts).length = pts.length := by
  simp [voxelKeys, gridIndices]

theorem voxelKeysExact_length (v : K) (pts : List Q3) :
    (voxelKeysExact v pts).length = pts.length := by
  simp [voxelKeysExact, gridIndices]

/-- The exact key list is the pointwise linearization of the shifted grid
indices. -/
theorem voxelKeysExact_eq_map (v : K) (pts : List Q3) :
    voxelKeysExact v pts = (gridIndices v pts).map (fun t =>
      voxelLinExact
        (npMax3 ((gridIndices v pts).map (voxelShiftExact (npMin3 (gridIndices v pts)))))
        (voxelShiftExact (npMin3 (gridIndices v pts)) t)) := by
  simp only [voxelKeysExact, List.map_map]
  rfl

theorem voxelKeysExact_getD (v : K) (pts : List Q3) (i : ℕ) (hi : i < pts.length) :
    (voxelKeysExact v pts).getD i 0 =
      voxelLinExact
        (npMax3 ((gridIndices v pts).map (voxelShiftExact (npMin3 (gridIndices v pts)))))
        (voxelShiftExact (npMin3 (gridIndices v pts)) (gridIndex v (pts.getD i q0))) := by
  have h1 : i < (voxelKeysExact v pts).length := by rw [voxelKeysExact_length]; exact hi
  rw [List.getD_eq_getElem _ _ h1, pts.getD_eq_getElem q0 hi]
  simp only [voxelKeysExact_eq_map, gridIndices, List.getElem_map]

theorem getD_mem {α : Type} (l : List α) (d : α) (i : ℕ) (hi : i < l.length) :
    l.getD i d ∈ l := by
  rw [l.getD_eq_getElem d hi]
  exact List.getElem_mem hi

/-- The exact linearized key map is injective on the occurring grid
indices. -/
theorem voxelLinShiftExact_injOn (v : K) (pts : List Q3) :
    ∀ a ∈ gridIndices v pts, ∀ b ∈ gridIndices v pts,
      voxelLinExact
          (npMax3 ((gridIndices v pts).map (voxelShiftExact (npMin3 (gridIndices v pts)))))
          (voxelShiftExact (npMin3 (gridIndices v pts)) a) =
        voxelLinExact
          (npMax3 ((gridIndices v pts).map (voxelShiftExact (npMin3 (gridIndices v pts)))))
          (voxelShiftExact (npMin3 (gridIndices v pts)) b) → a = b := by
  intro a ha b hb h
  have hsa : voxelShiftExact (npMin3 (gridIndices v pts)) a ∈
      (gridIndices v pts).map (voxelShiftExact (npMin3 (gridIndices v pts))) :=
    List.mem_map_of_mem _ ha
  have hsb : voxelShiftExact (npMin3 (gridIndices v pts)) b ∈
      (gridIndices v pts).map (voxelShiftExact (npMin3 (gridIndices v pts))) :=
    List.mem_map_of_mem _ hb
  have hba := npMin3_le _ _ ha
  have hbb := npMin3_le _ _ hb
  have hua := le_npMax3 _ _ hsa
  have hub := le_npMax3 _ _ hsb
  have hs := voxelLinExact_inj _ _ _
    (sub_nonneg.mpr hba.2.1) hua.2.1 (sub_nonneg.mpr hba.2.2) hua.2.2
    (sub_nonneg.mpr hbb.2.1) hub.2.1 (sub_nonneg.mpr hbb.2.2) hub.2.2 h
  have e1 : a.1 - (npMin3 (gridIndices v pts)).1 =
      b.1 - (npMin3 (gridIndices v pts)).1 := congrArg (fun t : I3 => t.1) hs
  have e2 : a.2.1 - (npMin3 (gridIndices v pts)).2.1 =
      b.2.1 - (npMin3 (gridIndices v pts)).2.1 := congrArg (fun t : I3 => t.2.1) hs
  have e3 : a.2.2 - (npMin3 (gridIndices v pts)).2.2 =
      b.2.2 - (npMin3 (gridIndices v pts)).2.2 := congrArg (fun t : I3 => t.2.2) hs
  refine Prod.ext_iff.mpr ⟨by omega, Prod.ext_iff.mpr ⟨by omega, by omega⟩⟩

/-- When the `int64` key computation does not overflow, two in-range
indices receive the same key iff their points fall in the same grid
cell. -/
theorem voxelKeyFn_inj_of_exact (v : K) (pts : List Q3)
    (hexact : voxelKeys v pts = voxelKeysExact v pts) (i j : ℕ)
    (hi : i < pts.length) (hj : j < pts.length) :
    voxelKeyFn v pts i = voxelKeyFn v pts j ↔
      gridIndex v (pts.getD i q0) = gridIndex v (pts.getD j q0) := by
  have hmi : gridIndex v (pts.getD i q0) ∈ gridIndices v pts := by
    simp only [gridIndices]
    exact List.mem_map_of_mem _ (getD_mem pts q0 i hi)
  have hmj : gridIndex v (pts.getD j q0) ∈ gridIndices v pts := by
    simp only [gridIndices]
    exact List.mem_map_of_mem _ (getD_mem pts q0 j hj)
  constructor
  · intro h
    simp only [voxelKeyFn, hexact] at h
    rw [voxelKeysExact_getD v pts i hi, voxelKeysExact_getD v pts j hj] at h
    exact voxelLinShiftExact_injOn v pts _ hmi _ hmj h
  · intro h
    simp only [voxelKeyFn, hexact]
    rw [voxelKeysExact_getD v pts i hi, voxelKeysExact_getD v pts j hj, h]

/-- The voxel-key map over the input order is exactly the key list. -/
theorem range_map_voxelKeyFn (v : K) (pts : List Q3) :
    (List.range pts.length).map (voxelKeyFn v pts) = voxelKeys v pts := by
  have hlen := voxelKeys_length v pts
  conv_lhs => rw [← hlen]
  exact map_getD_range (voxelKeys v pts) 0

/-- One index is selected per distinct (wrapped) voxel key, whatever those
keys are: the number of groups equals the number of distinct values of the
key list actually computed by the program. -/
theorem selectedIdx_length_eq (v : K) (pts : List Q3) :
    (selectedIdx v pts).length = (voxelKeys v pts).toFinset.card := by
  rw [selectedIdx, List.length_map, voxelGroups,
    groupRuns_length_eq _ _ (sortedIdx_keys_mono v pts),
    perm_toFinset_eq ((sortedIdx_perm v pts).map (voxelKeyFn v pts)),
    range_map_voxelKeyFn]

end KeyStructure

/-- `pickNearest` on a cons cell is the first-minimum fold. -/
theorem pickNearest_eq_pickFold (pts : List Q3) (i : ℕ) (rest : List ℕ) :
    pickNearest pts (i :: rest) =
      pickFold (fun j => distSq (pts.getD j q0) (centroid pts (i :: rest))) i rest := rfl

theorem pickNearest_mem (pts : List Q3) (g : List ℕ) (hne : g ≠ []) :
    pickNearest pts g ∈ g := by
  match g with
  | [] => exact absurd rfl hne
  | i :: rest =>
    rw [pickNearest_eq_pickFold]
    obtain ⟨hmem, _, _, _⟩ := pickFold_spec
      (fun j => distSq (pts.getD j q0) (centroid pts (i :: rest))) rest i
    rcases hmem with heq | hm
    · rw [heq]; exact List.mem_cons_self _ _
    · exact List.mem_cons_of_mem _ hm

section Downsampler

variable {K : Type} [LinearOrderedField K] [FloorRing K]

theorem voxelGroups_pick_mem (v : K) (pts : List Q3) :
    ∀ g ∈ voxelGroups v pts, pickNearest pts g ∈ g := by
  intro g hg
  obtain ⟨x, t, hat, _, _⟩ := groupRuns_shape _ _ g hg
  exact pickNearest_mem pts g (by rw [hat]; simp)

theorem selectedIdx_lt (v : K) (pts : List Q3) :
    ∀ s ∈ selectedIdx v pts, s < pts.length := by
  intro s hs
  obtain ⟨g, hg, heq⟩ := List.mem_map.mp hs
  have hmem : s ∈ g := heq ▸ voxelGroups_pick_mem v pts g hg
  have hflat : s ∈ (voxelGroups v pts).flatten := List.mem_flatten.mpr ⟨g, hg, hmem⟩
  rw [voxelGroups, groupRuns_flatten] at hflat
  exact (mem_sortedIdx v pts s).mp hflat

/-- Every output slot of the voxel downsampler is a verbatim copy of one
input point together with that same point's color. -/
theorem dvgn_identity (pts : List Q3) (cols : List N3) (v : K) (n : ℕ)
    (hn : n < (downsample_voxel_grid_nearest pts cols v).1.length) :
    ∃ i, i < pts.length ∧
      (downsample_voxel_grid_nearest pts cols v).1.getD n q0 = pts.getD i q0 ∧
      (downsample_voxel_grid_nearest pts cols v).2.1.getD n n0 = cols.getD i n0 := by
  have hn' : n < (selectedIdx v pts).length := by
    simpa [downsample_voxel_grid_nearest] using hn
  refine ⟨(selectedIdx v pts).getD n 0, ?_, ?_, ?_⟩
  · exact selectedIdx_lt v pts _ (getD_mem _ 0 n hn')
  · show ((selectedIdx v pts).map (fun i => pts.getD i q0)).getD n q0 = _
    rw [List.getD_eq_getElem _ _ (by simpa using hn'), List.getElem_map,
      ← List.getD_eq_getElem _ 0 hn']
  · show ((selectedIdx v pts).map (fun i => cols.getD i n0)).getD n n0 = _
    rw [List.getD_eq_getElem _ _ (by simpa using hn'), List.getElem_map,
      ← List.getD_eq_getElem _ 0 hn']

end Downsampler

/-- The grid indices of the C10 overflow counterexample: extents of `2^32`
cells along y and z make `max_idx[1] * max_idx[2] = 2^64`, which wraps to
`0` in `np.int64`. -/
def pts64 : List Q3 := [(0, 0, 0), (1, 0, 0), (0, 4294967295, 0), (0, 0, 4294967295)]

def cols64 : List N3 := [(1, 0, 0), (0, 1, 0), (0, 0, 1), (1, 1, 1)]

theorem pts64_gridIndices :
    gridIndices (1 : ℚ) pts64 =
      [(0, 0, 0), (1, 0, 0), (0, 4294967295, 0), (0, 0, 4294967295)] := by
  simp only [pts64, gridIndices, List.map_cons, List.map_nil, gridIndex,
    Rat.cast_id, div_one]
  norm_num [Prod.ext_iff]

/-- C10 counterexample: the input domain of the claim contains point sets
on which the `int64` voxel-key computation overflows.  At voxel size 1 the
four points of `pts64` occupy four distinct grid cells, but
`max_idx[1] * max_idx[2] = 2^32 * 2^32` wraps to `0`, so the keys of the
first two points — whose cells differ only in x — coincide: the key map is
not injective on the occurring cells, and the downsampler returns 3 points
for 4 occupied voxels. -/
theorem c10_counterexample :
    gridIndex (1 : ℚ) (pts64.getD 0 q0) ≠ gridIndex (1 : ℚ) (pts64.getD 1 q0) ∧
    voxelKeyFn (1 : ℚ) pts64 0 = voxelKeyFn (1 : ℚ) pts64 1 ∧
    (downsample_voxel_grid_nearest pts64 cols64 (1 : ℚ)).2.2.length = 3 ∧
    voxelCount pts64 (1 : ℚ) = 4 := by
  have hkeys : voxelKeys (1 : ℚ) pts64 = [0, 0, -4294967296, 4294967295] := by
    simp only [voxelKeys, pts64_gridIndices]
    decide
  refine ⟨?_, ?_, ?_, ?_⟩
  · have h0 : gridIndex (1 : ℚ) (pts64.getD 0 q0) = (0, 0, 0) := by
      simp only [pts64, List.getD_cons_zero, gridIndex, Rat.cast_id, div_one]
      norm_num [Prod.ext_iff]
    have h1 : gridIndex (1 : ℚ) (pts64.getD 1 q0) = (1, 0, 0) := by
      simp only [pts64, List.getD_cons_succ, List.getD_cons_zero, gridIndex,
        Rat.cast_id, div_one]
      norm_num [Prod.ext_iff]
    rw [h0, h1]
    decide
  · simp only [voxelKeyFn, hkeys]
    decide
  · show (selectedIdx (1 : ℚ) pts64).length = 3
    rw [selectedIdx_length_eq, hkeys]
    decide
  · rw [voxelCount]
    have : pts64.map (gridIndex (1 : ℚ)) =
        [(0, 0, 0), (1, 0, 0), (0, 4294967295, 0), (0, 0, 4294967295)] :=
      pts64_gridIndices
    rw [this]
    decide

/-- C10 (amended): for a non-empty point set and positive voxel size,
provided the `int64` voxel-key computation does not overflow (the wrapped
keys coincide with their exact unbounded-integer values), the voxel
downsampler returns pairwise-distinct source indices, exactly one per
occupied voxel: the output index count equals the number of distinct
floored grid-index triples (and never exceeds the input size), and two
in-range positions receive the same linearized voxel key iff their points
share a grid cell — the exact row-major linearization is injective over
the occurring shifted index ranges.  Without the no-overflow proviso
distinct cells can share a key (`c10_counterexample`). -/
theorem c10_distinct_one_per_voxel {K : Type} [LinearOrderedField K] [FloorRing K]
    (pts : List Q3) (cols : List N3) (v : K) (hv : 0 < v) (hne : pts ≠ [])
    (hexact : voxelKeys v pts = voxelKeysExact v pts) :
    (downsample_voxel_grid_nearest pts cols v).2.2.Nodup ∧
    (downsample_voxel_grid_nearest pts cols v).2.2.length = voxelCount pts v ∧
    (downsample_voxel_grid_nearest pts cols v).2.2.length ≤ pts.length ∧
    ∀ i j, i < pts.length → j < pts.length →
      (voxelKeyFn v pts i = voxelKeyFn v pts j ↔
        gridIndex v (pts.getD i q0) = gridIndex v (pts.getD j q0)) := by
  have hsel : (downsample_voxel_grid_nearest pts cols v).2.2 = selectedIdx v pts := rfl
  have hndflat : (voxelGroups v pts).flatten.Nodup := by
    rw [voxelGroups, groupRuns_flatten]
    exact sortedIdx_nodup v pts
  have hcount : (selectedIdx v pts).length = voxelCount pts v := by
    rw [selectedIdx_length_eq, hexact, voxelKeysExact_eq_map, map_toFinset_image,
      Finset.card_image_of_injOn (fun a ha b hb h =>
        voxelLinShiftExact_injOn v pts a (List.mem_toFinset.mp ha) b
          (List.mem_toFinset.mp hb) h),
      voxelCount, ← List.card_toFinset]
    rfl
  refine ⟨?_, ?_, ?_, ?_⟩
  · rw [hsel]
    exact nodup_map_pick _ _ (voxelGroups_pick_mem v pts) hndflat
  · rw [hsel]; exact hcount
  · rw [hsel, hcount, voxelCount]
    calc ((pts.map (gridIndex v)).dedup).length
        ≤ (pts.map (gridIndex v)).length := (List.dedup_sublist _).length_le
      _ = pts.length := List.length_map _ _
  · intro i j hi hj
    exact voxelKeyFn_inj_of_exact v pts hexact i j hi hj

theorem wPts_gridIndices : gridIndices (1 : ℚ) wPts = [(1, 2, 3), (0, 5, 0)] := by
  simp only [wPts, gridIndices, List.map_cons, List.map_nil, gridIndex,
    Rat.cast_id, div_one]
  norm_num [Prod.ext_iff]

/-- On the witness input the `int64` key computation stays in range. -/
theorem wPts_keys_exact : voxelKeys (1 : ℚ) wPts = voxelKeysExact (1 : ℚ) wPts := by
  simp only [voxelKeys, voxelKeysExact, wPts_gridIndices]
  decide

theorem c10_witness :
    ((0 : ℚ) < 1 ∧ wPts ≠ [] ∧
      voxelKeys (1 : ℚ) wPts = voxelKeysExact (1 : ℚ) wPts) ∧
      ((downsample_voxel_grid_nearest wPts wCols (1 : ℚ)).2.2.Nodup ∧
      (downsample_voxel_grid_nearest wPts wCols (1 : ℚ)).2.2.length =
        voxelCount wPts (1 : ℚ) ∧
      (downsample_voxel_grid_nearest wPts wCols (1 : ℚ)).2.2.length ≤ wPts.length ∧
      ∀ i j, i < wPts.length → j < wPts.length →
        (voxelKeyFn (1 : ℚ) wPts i = voxelKeyFn (1 : ℚ) wPts j ↔
          gridIndex (1 : ℚ) (wPts.getD i q0) = gridIndex (1 : ℚ) (wPts.getD j q0))) :=
  ⟨⟨by norm_num, by simp [wPts], wPts_keys_exact⟩,
   c10_distinct_one_per_voxel wPts wCols 1 (by norm_num) (by simp [wPts])
     wPts_keys_exact⟩

/-- C1: every point of the voxel downsampler's output (and hence of a
successful `downsample_to_target`) carries the coordinates and the color of
one single input point, copied verbatim — never an average or
interpolation. -/
theorem c1_point_identity {K : Type} [LinearOrderedField K] [FloorRing K] :
    (∀ (pts : List Q3) (cols : List N3) (v : K), 0 < v →
      ∀ n, n < (downsample_voxel_grid_nearest pts cols v).1.length →
        ∃ i, i < pts.length ∧
          (downsample_voxel_grid_nearest pts cols v).1.getD n q0 = pts.getD i q0 ∧
          (downsample_voxel_grid_nearest pts cols v).2.1.getD n n0 = cols.getD i n0) ∧
    (∀ (pts : List Q3) (cols : List N3) (tc tsb : Option ℤ) (ps : List Q3)
        (cs : List N3),
      downsample_to_target pts cols tc tsb = Except.ok (ps, cs) →
      ∀ n, n < ps.length →
        ∃ i, i < pts.length ∧ ps.getD n q0 = pts.getD i q0 ∧
          cs.getD n n0 = cols.getD i n0) := by
  constructor
  · intro pts cols v _ n hn
    exact dvgn_identity pts cols v n hn
  · intro pts cols tc tsb ps cs h n hn
    simp only [downsample_to_target] at h
    split at h
    · exact absurd h (by simp)
    · split at h
      · obtain ⟨rfl, rfl⟩ := Prod.mk.injEq .. ▸ (Except.ok.injEq .. ▸ h)
        exact ⟨n, by simpa using hn, rfl, rfl⟩
      · split at h
        · exact absurd h (by simp)
        · obtain ⟨rfl, rfl⟩ := Prod.mk.injEq .. ▸ (Except.ok.injEq .. ▸ h)
          exact dvgn_identity pts cols _ n hn

/-- Single concrete point/color used by the C1 witness. -/
def wPt1 : List Q3 := [(1, 2, 3)]

/-- Color list paired with `wPt1`. -/
def wCol1 : List N3 := [(9, 8, 7)]

theorem c1_witness :
    ((0 : ℚ) < 1 ∧ 0 < (downsample_voxel_grid_nearest wPt1 wCol1 (1 : ℚ)).1.length ∧
      (∃ i, i < wPt1.length ∧
        (downsample_voxel_grid_nearest wPt1 wCol1 (1 : ℚ)).1.getD 0 q0 = wPt1.getD i q0 ∧
        (downsample_voxel_grid_nearest wPt1 wCol1 (1 : ℚ)).2.1.getD 0 n0 =
          wCol1.getD i n0)) ∧
    (downsample_to_target wPts wCols (some 5) none = Except.ok (wPts, wCols) ∧
      0 < wPts.length ∧
      ∃ i, i < wPts.length ∧ wPts.getD 0 q0 = wPts.getD i q0 ∧
        wCols.getD 0 n0 = wCols.getD i n0) := by
  have hlen : (downsample_voxel_grid_nearest wPt1 wCol1 (1 : ℚ)).1.length = 1 := by
    have hr : List.range 1 = [0] := rfl
    simp [downsample_voxel_grid_nearest, selectedIdx, voxelGroups, sortedIdx, wPt1,
      groupRuns, hr]
  refine ⟨⟨by norm_num, by omega, ?_⟩, rfl, by simp [wPts], ?_⟩
  · exact (c1_point_identity (K := ℚ)).1 wPt1 wCol1 1 (by norm_num) 0 (by omega)
  · exact (c1_point_identity (K := ℚ)).2 wPts wCols (some 5) none wPts wCols rfl 0
      (by simp [wPts])

/-! ## C2: per-voxel representative selection -/

theorem distSq_nonneg (a b : Q3) : 0 ≤ distSq a b := by
  simp only [distSq]
  positivity

theorem euclidDist_le_iff (a b c : Q3) :
    euclidDist a c ≤ euclidDist b c ↔ distSq a c ≤ distSq b c := by
  rw [euclidDist, euclidDist,
    Real.sqrt_le_sqrt_iff (by exact_mod_cast distSq_nonneg b c)]
  exact_mod_cast Iff.rfl

theorem euclidDist_eq_iff (a b c : Q3) :
    euclidDist a c = euclidDist b c ↔ distSq a c = distSq b c := by
  rw [euclidDist, euclidDist,
    Real.sqrt_inj (by exact_mod_cast distSq_nonneg a c)
      (by exact_mod_cast distSq_nonneg b c)]
  exact_mod_cast Iff.rfl

theorem euclidDist_lt_iff (a b c : Q3) :
    euclidDist a c < euclidDist b c ↔ distSq a c < distSq b c := by
  rw [lt_iff_not_le, lt_iff_not_le, euclidDist_le_iff]

/-- The two points of the C2 tie-break counterexample: both fall in voxel
`(0,0,0)` at size 1 and are equidistant from their common centroid. -/
def c2pts : List Q3 := [(0, 0, 0), (1/10, 0, 0)]

theorem c2pts_keys : voxelKeys (1 : ℚ) c2pts = [0, 0] := by
  have hg : gridIndices (1 : ℚ) c2pts = [(0, 0, 0), (0, 0, 0)] := by
    simp only [c2pts, gridIndices, List.map_cons, List.map_nil, gridIndex,
      Rat.cast_id, div_one]
    norm_num [Prod.ext_iff]
  simp only [voxelKeys, hg]
  decide

/-- C2 counterexample: the input-order tie-break is not a program
guarantee.  `[1, 0]` is an admissible result of `np.argsort` on the voxel
keys of `c2pts` — both keys are `0`, and the default quicksort leaves the
relative order of equal keys unspecified — and under this admissible order
the single voxel's group is `[1, 0]`: although both members are at exactly
the same Euclidean distance from the centroid, the selection takes the
first minimum in group order, index 1, not the first-encountered input
index 0. -/
theorem c2_counterexample :
    IsArgsort (voxelKeyFn (1 : ℚ) c2pts) c2pts.length [1, 0] ∧
    (groupRuns (voxelKeyFn (1 : ℚ) c2pts) [1, 0]).map (pickNearest c2pts) = [1] ∧
    euclidDist (c2pts.getD 0 q0) (centroid c2pts [1, 0]) =
      euclidDist (c2pts.getD 1 q0) (centroid c2pts [1, 0]) ∧
    (1 : ℕ) ≠ 0 := by
  have hk : ∀ i, voxelKeyFn (1 : ℚ) c2pts i = 0 := by
    intro i
    simp only [voxelKeyFn, c2pts_keys]
    match i with
    | 0 => rfl
    | 1 => rfl
    | n + 2 => rfl
  have hcent : centroid c2pts [1, 0] = (1/20, 0, 0) := by
    simp only [centroid, c2pts, List.map_cons, List.map_nil, List.getD_cons_zero,
      List.getD_cons_succ, List.length_cons, List.length_nil, List.sum_cons,
      List.sum_nil]
    norm_num [Prod.ext_iff]
  have hd0 : distSq (c2pts.getD 0 q0) (centroid c2pts [1, 0]) = 1/400 := by
    rw [hcent]
    simp only [c2pts, List.getD_cons_zero]
    norm_num [distSq]
  have hd1 : distSq (c2pts.getD 1 q0) (centroid c2pts [1, 0]) = 1/400 := by
    rw [hcent]
    simp only [c2pts, List.getD_cons_succ, List.getD_cons_zero]
    norm_num [distSq]
  have hrange : List.range c2pts.length = [0, 1] := by decide
  refine ⟨⟨?_, ?_⟩, ?_, ?_, by omega⟩
  · rw [hrange]
    exact List.Perm.swap 0 1 []
  · refine List.pairwise_cons.mpr ⟨?_, by simp⟩
    intro y hy
    simp [hk]
  · have hgrp : groupRuns (voxelKeyFn (1 : ℚ) c2pts) [1, 0] = [[1, 0]] := by
      refine groupRuns_const_keys _ _ (by simp) ?_
      intro y _ x _
      rw [hk, hk]
    have hpick : pickNearest c2pts [1, 0] = 1 := by
      rw [pickNearest_eq_pickFold]
      show pickFold _ 1 [0] = 1
      simp only [pickFold, List.foldl_cons, List.foldl_nil, hd0, hd1]
      rw [if_neg (lt_irrefl (1/400 : ℚ))]
    rw [hgrp, List.map_cons, List.map_nil, hpick]
  · rw [euclidDist_eq_iff, hd0, hd1]

/-- C2 (amended): for every admissible `np.argsort` outcome `σ` on the
voxel keys (and the downsampler's selection is the per-group pick along
one such outcome), every group of `σ` consists exactly of the in-range
indices sharing its voxel key, the selected member of each group attains
the minimal Euclidean distance to the group's centroid, and it is the
first minimizer in the group's order.  Which group order occurs on equal
keys — and hence which of several equidistant members is selected — is
unspecified: the default quicksort is not stable, so the input-order
tie-break claimed by the specification is not guaranteed
(`c2_counterexample`). -/
theorem c2_first_min_in_group_order {K : Type} [LinearOrderedField K] [FloorRing K]
    (pts : List Q3) (cols : List N3) (v : K) (hv : 0 < v)
    (σ : List ℕ) (hσ : IsArgsort (voxelKeyFn v pts) pts.length σ) :
    IsArgsort (voxelKeyFn v pts) pts.length (sortedIdx v pts) ∧
    (downsample_voxel_grid_nearest pts cols v).2.2 =
      (groupRuns (voxelKeyFn v pts) (sortedIdx v pts)).map (pickNearest pts) ∧
    ∀ g ∈ groupRuns (voxelKeyFn v pts) σ,
      pickNearest pts g ∈ g ∧
      (∀ j ∈ g,
        euclidDist (pts.getD (pickNearest pts g) q0) (centroid pts g) ≤
          euclidDist (pts.getD j q0) (centroid pts g)) ∧
      (∃ g1 g2, g = g1 ++ pickNearest pts g :: g2 ∧
        ∀ y ∈ g1,
          euclidDist (pts.getD (pickNearest pts g) q0) (centroid pts g) <
            euclidDist (pts.getD y q0) (centroid pts g)) ∧
      (∀ i, i < pts.length →
        (i ∈ g ↔ voxelKeyFn v pts i = voxelKeyFn v pts (g.headD 0))) := by
  obtain ⟨hperm, hmono⟩ := hσ
  refine ⟨sortedIdx_isArgsort v pts, rfl, ?_⟩
  intro g hg
  obtain ⟨x, t, hat, hkeys, hsub⟩ := groupRuns_shape _ _ g hg
  have hgne : g ≠ [] := by rw [hat]; simp
  have hpick := pickNearest_mem pts g hgne
  subst hat
  rw [pickNearest_eq_pickFold] at hpick ⊢
  obtain ⟨_, hle, hall, _⟩ :=
    pickFold_spec (fun j => distSq (pts.getD j q0) (centroid pts (x :: t))) t x
  refine ⟨hpick, ?_, ?_, ?_⟩
  · intro j hj
    rw [euclidDist_le_iff]
    rcases List.mem_cons.mp hj with heq | hj
    · rw [heq]; exact hle
    · exact hall j hj
  · obtain ⟨g1, g2, hsplit, hstrict⟩ :=
      pickFold_first_pos (fun j => distSq (pts.getD j q0) (centroid pts (x :: t))) t x
    refine ⟨g1, g2, hsplit, ?_⟩
    intro y hy
    rw [euclidDist_lt_iff]
    exact hstrict y hy
  · intro i hi
    constructor
    · intro hig
      have h1 := hkeys i hig
      simp only [List.headD_cons]
      exact h1
    · intro hk
      refine groupRuns_complete _ _ hmono _ hg i ?_ ?_
      · rw [hperm.mem_iff, List.mem_range]
        exact hi
      · intro x1 t1 heq
        obtain ⟨rfl, _⟩ := List.cons.injEq .. ▸ heq
        simpa using hk

theorem c2_witness :
    ((0 : ℚ) < 1 ∧
      IsArgsort (voxelKeyFn (1 : ℚ) wPts) wPts.length (sortedIdx (1 : ℚ) wPts)) ∧
      (IsArgsort (voxelKeyFn (1 : ℚ) wPts) wPts.length (sortedIdx (1 : ℚ) wPts) ∧
      (downsample_voxel_grid_nearest wPts wCols (1 : ℚ)).2.2 =
        (groupRuns (voxelKeyFn (1 : ℚ) wPts) (sortedIdx (1 : ℚ) wPts)).map
          (pickNearest wPts) ∧
      ∀ g ∈ groupRuns (voxelKeyFn (1 : ℚ) wPts) (sortedIdx (1 : ℚ) wPts),
        pickNearest wPts g ∈ g ∧
        (∀ j ∈ g,
          euclidDist (wPts.getD (pickNearest wPts g) q0) (centroid wPts g) ≤
            euclidDist (wPts.getD j q0) (centroid wPts g)) ∧
        (∃ g1 g2, g = g1 ++ pickNearest wPts g :: g2 ∧
          ∀ y ∈ g1,
            euclidDist (wPts.getD (pickNearest wPts g) q0) (centroid wPts g) <
              euclidDist (wPts.getD y q0) (centroid wPts g)) ∧
        (∀ i, i < wPts.length →
          (i ∈ g ↔ voxelKeyFn (1 : ℚ) wPts i =
            voxelKeyFn (1 : ℚ) wPts (g.headD 0)))) :=
  ⟨⟨by norm_num, sortedIdx_isArgsort 1 wPts⟩,
   c2_first_min_in_group_order wPts wCols 1 (by norm_num) _
     (sortedIdx_isArgsort 1 wPts)⟩

/-! ## C5: degenerate bounding box -/

theorem npMaxQ_const (l : List ℚ) (a : ℚ) (h : ∀ x ∈ l, x = a) (hne : l ≠ []) :
    npMaxQ l = a :=
  h _ (npMaxQ_mem l hne)

theorem npMinQ_const (l : List ℚ) (a : ℚ) (h : ∀ x ∈ l, x = a) (hne : l ≠ []) :
    npMinQ l = a :=
  h _ (npMinQ_mem l hne)

/-- All points identical: the bounding-box diagonal is zero. -/
theorem bboxDiag_const (pts : List Q3) (p0 : Q3)
    (hall : ∀ p ∈ pts, p = p0) (hne : pts ≠ []) : bboxDiag pts = 0 := by
  have hmne : ∀ f : Q3 → ℚ, pts.map f ≠ [] := by
    intro f h
    exact hne (List.map_eq_nil_iff.mp h)
  have h1 : npMaxQ (pts.map (fun p => p.1)) = p0.1 := by
    refine npMaxQ_const _ _ ?_ (hmne _)
    rintro x hx
    obtain ⟨p, hp, rfl⟩ := List.mem_map.mp hx
    rw [hall p hp]
  have h2 : npMinQ (pts.map (fun p => p.1)) = p0.1 := by
    refine npMinQ_const _ _ ?_ (hmne _)
    rintro x hx
    obtain ⟨p, hp, rfl⟩ := List.mem_map.mp hx
    rw [hall p hp]
  have h3 : npMaxQ (pts.map (fun p => p.2.1)) = p0.2.1 := by
    refine npMaxQ_const _ _ ?_ (hmne _)
    rintro x hx
    obtain ⟨p, hp, rfl⟩ := List.mem_map.mp hx
    rw [hall p hp]
  have h4 : npMinQ (pts.map (fun p => p.2.1)) = p0.2.1 := by
    refine npMinQ_const _ _ ?_ (hmne _)
    rintro x hx
    obtain ⟨p, hp, rfl⟩ := List.mem_map.mp hx
    rw [hall p hp]
  have h5 : npMaxQ (pts.map (fun p => p.2.2)) = p0.2.2 := by
    refine npMaxQ_const _ _ ?_ (hmne _)
    rintro x hx
    obtain ⟨p, hp, rfl⟩ := List.mem_map.mp hx
    rw [hall p hp]
  have h6 : npMinQ (pts.map (fun p => p.2.2)) = p0.2.2 := by
    refine npMinQ_const _ _ ?_ (hmne _)
    rintro x hx
    obtain ⟨p, hp, rfl⟩ := List.mem_map.mp hx
    rw [hall p hp]
  rw [bboxDiag, h1, h2, h3, h4, h5, h6]
  simp [Real.sqrt_zero]

section FvLoopZero

variable {K : Type} [LinearOrderedField K] [FloorRing K]

/-- From a collapsed search interval `[0, 0]` the bisection loop can only
ever return voxel size `0` (every midpoint is `0`). -/
theorem fvLoop_zero_bounds (pts : List Q3) (t : ℤ) (tol : ℚ) (ht : ¬ t = 0) :
    ∀ fuel, fvLoop pts t tol fuel (0 : K) 0 0 = Except.ok 0 := by
  intro fuel
  induction fuel with
  | zero => rfl
  | succ n ih =>
    have h0 : ((0 : K) + 0) / 2 = 0 := by norm_num
    simp only [fvLoop, h0, ht, if_false]
    split
    · rfl
    · split <;> exact ih

end FvLoopZero

/-- Degenerate bounding box: calibration returns voxel size `0` without
raising (both search bounds collapse to `0`). -/
theorem find_voxel_size_degenerate (pts : List Q3) (p0 : Q3)
    (hall : ∀ p ∈ pts, p = p0) (hne : pts ≠ []) (t : ℤ) (ht : ¬ t = 0) (tol : ℚ) :
    find_voxel_size_for_target pts t tol = Except.ok 0 := by
  rw [find_voxel_size_for_target, bboxDiag_const pts p0 hall hne]
  simp only [zero_div]
  exact fvLoop_zero_bounds pts t tol ht 50

section DegenerateGrid

variable {K : Type} [LinearOrderedField K] [FloorRing K]

theorem gridIndex_zeroV (p : Q3) : gridIndex (0 : K) p = (0, 0, 0) := by
  simp [gridIndex]

theorem foldl_imin3_zero : ∀ n, (List.replicate n ((0, 0, 0) : I3)).foldl imin3
    ((0, 0, 0) : I3) = (0, 0, 0) := by
  intro n
  induction n with
  | zero => rfl
  | succ m ih => simpa [List.replicate_succ, imin3] using ih

theorem foldl_imax3_zero : ∀ n, (List.replicate n ((0, 0, 0) : I3)).foldl imax3
    ((0, 0, 0) : I3) = (0, 0, 0) := by
  intro n
  induction n with
  | zero => rfl
  | succ m ih => simpa [List.replicate_succ, imax3] using ih

theorem gridIndices_zeroV (pts : List Q3) :
    gridIndices (0 : K) pts = List.replicate pts.length ((0, 0, 0) : I3) := by
  have h : ∀ b ∈ gridIndices (0 : K) pts, b = ((0, 0, 0) : I3) := by
    intro b hb
    obtain ⟨p, _, rfl⟩ := List.mem_map.mp hb
    exact gridIndex_zeroV p
  have hlen : (gridIndices (0 : K) pts).length = pts.length := by
    simp [gridIndices]
  rw [← hlen]
  exact List.eq_replicate_of_mem h

theorem npMin3_replicate_zero (n : ℕ) :
    npMin3 (List.replicate n ((0, 0, 0) : I3)) = (0, 0, 0) := by
  match n with
  | 0 => rfl
  | m + 1 =>
    rw [List.replicate_succ]
    exact foldl_imin3_zero m

theorem npMax3_replicate_zero (n : ℕ) :
    npMax3 (List.replicate n ((0, 0, 0) : I3)) = (0, 0, 0) := by
  match n with
  | 0 => rfl
  | m + 1 =>
    rw [List.replicate_succ]
    exact foldl_imax3_zero m

theorem voxelKeys_zeroV (pts : List Q3) :
    voxelKeys (0 : K) pts = List.replicate pts.length 0 := by
  simp only [voxelKeys, gridIndices_zeroV, npMin3_replicate_zero, List.map_replicate]
  have hshift : voxelShift ((0, 0, 0) : I3) ((0, 0, 0) : I3) = (0, 0, 0) := by
    decide
  rw [hshift, npMax3_replicate_zero]
  have hlin : voxelLin ((0, 0, 0) : I3) ((0, 0, 0) : I3) = 0 := by
    decide
  rw [hlin]

theorem voxelKeyFn_zeroV (pts : List Q3) (i : ℕ) :
    voxelKeyFn (0 : K) pts i = 0 := by
  rw [voxelKeyFn, voxelKeys_zeroV]
  rcases Nat.lt_or_ge i pts.length with h | h
  · rw [List.getD_eq_getElem _ _ (by simpa using h), List.getElem_replicate]
  · rw [List.getD_eq_default _ _ (by simpa using h)]

/-- Constant keys make the stable argsort the identity permutation. -/
theorem sortedIdx_const_keys (v : K) (pts : List Q3)
    (hconst : ∀ i j, voxelKeyFn v pts i = voxelKeyFn v pts j) :
    sortedIdx v pts = List.range pts.length := by
  have hs1 : List.Sorted (fun i j => i ≤ j) (sortedIdx v pts) := by
    refine (sortedIdx_pairwise v pts).imp ?_
    intro i j h
    simp only [lexLe, Bool.or_eq_true, Bool.and_eq_true, decide_eq_true_eq] at h
    rcases h with h | ⟨_, h⟩
    · exact absurd h (by rw [hconst i j]; exact lt_irrefl _)
    · exact h
  have hs2 : List.Sorted (fun i j => i ≤ j) (List.range pts.length) :=
    (List.pairwise_lt_range _).imp le_of_lt
  exact List.eq_of_perm_of_sorted (sortedIdx_perm v pts) hs1 hs2

theorem pickFold_const (f : ℕ → ℚ) : ∀ (rest : List ℕ) (i : ℕ),
    (∀ j ∈ rest, f j = f i) → pickFold f i rest = i := by
  intro rest
  induction rest with
  | nil => intro i _; rfl
  | cons x xs ih =>
    intro i h
    have hx : f x = f i := h x (List.mem_cons_self _ _)
    have hstep : pickFold f i (x :: xs) = pickFold f i xs := by
      simp [pickFold, List.foldl_cons, hx]
    rw [hstep]
    exact ih i (fun j hj => h j (List.mem_cons_of_mem _ hj))

/-- With all points identical the downsampler keeps exactly the first
point. -/
theorem dvgn_degenerate (pts : List Q3) (cols : List N3) (p0 : Q3)
    (hall : ∀ p ∈ pts, p = p0) (hne : pts ≠ []) :
    downsample_voxel_grid_nearest pts cols (0 : K) =
      ([p0], [cols.getD 0 n0], [0]) := by
  obtain ⟨m, hm⟩ : ∃ m, pts.length = m + 1 := by
    match pts with
    | [] => exact absurd rfl hne
    | p :: ps => exact ⟨ps.length, rfl⟩
  have hsorted : sortedIdx (0 : K) pts = List.range pts.length :=
    sortedIdx_const_keys _ _ (fun i j => by rw [voxelKeyFn_zeroV, voxelKeyFn_zeroV])
  have hgroups : voxelGroups (0 : K) pts = [List.range pts.length] := by
    rw [voxelGroups, hsorted]
    refine groupRuns_const_keys _ _ ?_ ?_
    · rw [hm]; simp [List.range_succ]
    · intro y _ x _
      rw [voxelKeyFn_zeroV, voxelKeyFn_zeroV]
  have hrange : List.range pts.length = 0 :: (List.range m).map Nat.succ := by
    rw [hm, List.range_succ_eq_map]
  have hpick : pickNearest pts (List.range pts.length) = 0 := by
    rw [hrange, pickNearest_eq_pickFold]
    apply pickFold_const
    intro j hj
    obtain ⟨a, ha, rfl⟩ := List.mem_map.mp hj
    have hja : a.succ < pts.length := by
      rw [hm]
      simpa using List.mem_range.mp ha
    have h1 : pts.getD a.succ q0 = p0 := hall _ (getD_mem pts q0 _ hja)
    have h2 : pts.getD 0 q0 = p0 := hall _ (getD_mem pts q0 _ (by omega))
    rw [← hrange, h1, h2]
  have hsel : selectedIdx (0 : K) pts = [0] := by
    rw [selectedIdx, hgroups, List.map_cons, List.map_nil, hpick]
  have hp0 : pts.getD 0 q0 = p0 := hall _ (getD_mem pts q0 _ (by omega))
  rw [downsample_voxel_grid_nearest, hsel]
  simp only [List.map_cons, List.map_nil]
  rw [hp0]

end DegenerateGrid

/-- C5: with a degenerate bounding box (all points identical) and a
downsampling target `1 ≤ t < N`, `downsample_to_target` does not fail on a
division by zero: the collapsed calibration returns voxel size `0` without
raising, under every admissible argsort outcome the whole set forms a
single voxel with exactly one selected representative, and the pipeline
returns the unique point value paired with the color of one input
position.  (Which position supplies the color is the unspecified tie order
of the unstable argsort; the model's resolution yields position 0.) -/
theorem c5_degenerate_single_voxel (pts : List Q3) (cols : List N3) (t : ℤ)
    (tsb : Option ℤ) (p0 : Q3) (hall : ∀ p ∈ pts, p = p0) (hne : pts ≠ [])
    (ht : 1 ≤ t) (hlt : t < (pts.length : ℤ)) :
    find_voxel_size_for_target pts t (1 / 20) = Except.ok 0 ∧
    (∀ σ : List ℕ, IsArgsort (voxelKeyFn (K := ℝ) 0 pts) pts.length σ →
      ∃ i, i < pts.length ∧
        (groupRuns (voxelKeyFn (K := ℝ) 0 pts) σ).map (pickNearest pts) = [i]) ∧
    ∃ i, i < pts.length ∧
      downsample_to_target pts cols (some t) tsb =
        Except.ok ([p0], [cols.getD i n0]) := by
  refine ⟨find_voxel_size_degenerate pts p0 hall hne t (by omega) (1 / 20), ?_, ?_⟩
  · intro σ hσ
    obtain ⟨hperm, _⟩ := hσ
    have hlen : σ.length = pts.length := by
      rw [hperm.length_eq, List.length_range]
    have hσne : σ ≠ [] := by
      intro h0
      rw [h0] at hlen
      simp only [List.length_nil] at hlen
      omega
    have hgrp : groupRuns (voxelKeyFn (K := ℝ) 0 pts) σ = [σ] :=
      groupRuns_const_keys _ _ hσne (fun y _ x _ => by
        rw [voxelKeyFn_zeroV, voxelKeyFn_zeroV])
    refine ⟨pickNearest pts σ, ?_, ?_⟩
    · have hm := pickNearest_mem pts σ hσne
      exact List.mem_range.mp (hperm.subset hm)
    · rw [hgrp, List.map_cons, List.map_nil]
  · refine ⟨0, by omega, ?_⟩
    have hnot : ¬ ((pts.length : ℤ) ≤ t) := by omega
    simp only [downsample_to_target, hnot, if_false]
    rw [find_voxel_size_degenerate pts p0 hall hne t (by omega) (1 / 20)]
    show Except.ok ((downsample_voxel_grid_nearest pts cols (0 : ℝ)).1,
      (downsample_voxel_grid_nearest pts cols (0 : ℝ)).2.1) = _
    rw [dvgn_degenerate pts cols p0 hall hne]

/-- Concrete degenerate point set for the C5 witness. -/
def wPtsEq : List Q3 := [(2, 3, 4), (2, 3, 4), (2, 3, 4)]

/-- Colors paired with `wPtsEq`. -/
def wColsEq : List N3 := [(1, 1, 1), (2, 2, 2), (3, 3, 3)]

theorem c5_witness :
    ((∀ p ∈ wPtsEq, p = ((2, 3, 4) : Q3)) ∧ wPtsEq ≠ [] ∧ (1 : ℤ) ≤ 2 ∧
      (2 : ℤ) < (wPtsEq.length : ℤ)) ∧
    (find_voxel_size_for_target wPtsEq 2 (1 / 20) = Except.ok 0 ∧
    (∀ σ : List ℕ, IsArgsort (voxelKeyFn (K := ℝ) 0 wPtsEq) wPtsEq.length σ →
      ∃ i, i < wPtsEq.length ∧
        (groupRuns (voxelKeyFn (K := ℝ) 0 wPtsEq) σ).map (pickNearest wPtsEq) =
          [i]) ∧
    ∃ i, i < wPtsEq.length ∧
      downsample_to_target wPtsEq wColsEq (some 2) none =
        Except.ok ([((2, 3, 4) : Q3)], [wColsEq.getD i n0])) :=
  ⟨⟨by simp [wPtsEq], by simp [wPtsEq], by norm_num, by simp [wPtsEq]⟩,
   c5_degenerate_single_voxel wPtsEq wColsEq 2 none (2, 3, 4)
     (by simp [wPtsEq]) (by simp [wPtsEq]) (by norm_num) (by simp [wPtsEq])⟩

/-! ## C7: bisection budget exhaustion.  Bridge between the real-valued
calibration and its rational instance (the cast `ℚ → ℝ` commutes with every
operation of the loop). -/

theorem gridIndex_cast (v : ℚ) (p : Q3) :
    gridIndex (K := ℝ) ((v : ℚ) : ℝ) p = gridIndex (K := ℚ) v p := by
  have h : ∀ x : ℚ, (⌊(x : ℝ) / ((v : ℚ) : ℝ)⌋) = ⌊x / v⌋ := by
    intro x
    rw [← Rat.cast_div, Rat.floor_cast]
  simp only [gridIndex, h]
  simp [Rat.cast_id]

theorem voxelCount_cast (pts : List Q3) (v : ℚ) :
    voxelCount pts ((v : ℚ) : ℝ) = voxelCount pts v := by
  have hf : gridIndex (K := ℝ) ((v : ℚ) : ℝ) = gridIndex (K := ℚ) v :=
    funext (gridIndex_cast v)
  simp only [voxelCount, hf]

theorem fvLoop_cast (pts : List Q3) (t : ℤ) (tol : ℚ) :
    ∀ (fuel : ℕ) (a b c : ℚ),
      fvLoop (K := ℝ) pts t tol fuel ((a : ℚ) : ℝ) ((b : ℚ) : ℝ) ((c : ℚ) : ℝ) =
        (fvLoop (K := ℚ) pts t tol fuel a b c).map (fun q => ((q : ℚ) : ℝ)) := by
  intro fuel
  induction fuel with
  | zero => intro a b c; rfl
  | succ n ih =>
    intro a b c
    have hmid : (((a : ℚ) : ℝ) + ((b : ℚ) : ℝ)) / 2 = (((a + b) / 2 : ℚ) : ℝ) := by
      push_cast
      ring
    simp only [fvLoop, hmid, voxelCount_cast]
    split
    · rfl
    · split
      · rfl
      · split
        · exact ih _ _ _
        · exact ih _ _ _

theorem fvTrace_cast (pts : List Q3) (t : ℤ) (tol : ℚ) :
    ∀ (fuel : ℕ) (a b : ℚ),
      fvTrace (K := ℝ) pts t tol fuel ((a : ℚ) : ℝ) ((b : ℚ) : ℝ) =
        (fvTrace (K := ℚ) pts t tol fuel a b).map (fun q => ((q : ℚ) : ℝ)) := by
  intro fuel
  induction fuel with
  | zero => intro a b; rfl
  | succ n ih =>
    intro a b
    have hmid : (((a : ℚ) : ℝ) + ((b : ℚ) : ℝ)) / 2 = (((a + b) / 2 : ℚ) : ℝ) := by
      push_cast
      ring
    simp only [fvTrace, hmid, voxelCount_cast]
    split
    · rfl
    · split
      · rfl
      · split
        · rw [List.map_cons, ih]
        · rw [List.map_cons, ih]

/-- The concrete point set refuting the best-midpoint claim: three
collinear points, two of which straddle grid lines differently as the
candidate voxel size moves. -/
def cexPts : List Q3 := [(-1, 0, 0), (7/10, 0, 0), (1, 0, 0)]

theorem cex_count_mid (v : ℚ) (h1 : 4/5 ≤ v) (h2 : v < 1) :
    voxelCount (K := ℚ) cexPts v = 3 := by
  have hv : (0 : ℚ) < v := by linarith
  have hf1 : (⌊((-1 : ℚ)) / v⌋) = -2 := by
    rw [Int.floor_eq_iff]
    constructor
    · rw [show (((-2 : ℤ)) : ℚ) = -2 by norm_num, le_div_iff hv]
      linarith
    · rw [show (((-2 : ℤ)) : ℚ) + 1 = -1 by norm_num, div_lt_iff hv]
      linarith
  have hf2 : (⌊(7 / 10 : ℚ) / v⌋) = 0 := by
    rw [Int.floor_eq_iff]
    constructor
    · positivity
    · rw [show (((0 : ℤ)) : ℚ) + 1 = 1 by norm_num, div_lt_iff hv]
      linarith
  have hf3 : (⌊(1 : ℚ) / v⌋) = 1 := by
    rw [Int.floor_eq_iff]
    constructor
    · rw [show (((1 : ℤ)) : ℚ) = 1 by norm_num, le_div_iff hv]
      linarith
    · rw [show (((1 : ℤ)) : ℚ) + 1 = 2 by norm_num, div_lt_iff hv]
      linarith
  have hf0 : (⌊(0 : ℚ) / v⌋) = 0 := by
    rw [zero_div]
    exact Int.floor_zero
  simp only [voxelCount, cexPts, List.map_cons, List.map_nil, gridIndex, Rat.cast_id,
    hf0, hf1, hf2, hf3]
  decide

theorem cex_count_35 : voxelCount (K := ℚ) cexPts (3 / 5 : ℚ) = 2 := by
  have hf1 : (⌊((-1 : ℚ)) / (3 / 5 : ℚ)⌋) = -2 := by norm_num
  have hf2 : (⌊(7 / 10 : ℚ) / (3 / 5 : ℚ)⌋) = 1 := by norm_num
  have hf3 : (⌊(1 : ℚ) / (3 / 5 : ℚ)⌋) = 1 := by norm_num
  have hf0 : (⌊(0 : ℚ) / (3 / 5 : ℚ)⌋) = 0 := by norm_num
  simp only [voxelCount, cexPts, List.map_cons, List.map_nil, gridIndex, Rat.cast_id,
    hf0, hf1, hf2, hf3]
  decide

/-- Closed form for the degenerating bisection on `cexPts` with target 1:
from any lower bound in `[3/5, 1)` and upper bound 1, every iteration sees
an occupied-voxel count above the target, so the lower bound keeps moving
to the midpoint. -/
theorem cex_fvLoop_closed : ∀ (n : ℕ) (a v0 : ℚ), 3 / 5 ≤ a → a < 1 →
    fvLoop (K := ℚ) cexPts 1 (1 / 20) (n + 1) a 1 v0 =
      Except.ok (1 - (1 - a) / 2 ^ (n + 1)) := by
  intro n
  induction n with
  | zero =>
    intro a v0 h1 h2
    have hm1 : (4 / 5 : ℚ) ≤ (a + 1) / 2 := by linarith
    have hm2 : (a + 1) / 2 < 1 := by linarith
    have hc : voxelCount (K := ℚ) cexPts ((a + 1) / 2) = 3 := cex_count_mid _ hm1 hm2
    simp only [fvLoop, hc]
    rw [if_neg (by norm_num), if_neg (by norm_num), if_pos (by norm_num)]
    exact congrArg Except.ok (by ring)
  | succ n ih =>
    intro a v0 h1 h2
    have hm1 : (4 / 5 : ℚ) ≤ (a + 1) / 2 := by linarith
    have hm2 : (a + 1) / 2 < 1 := by linarith
    have hc : voxelCount (K := ℚ) cexPts ((a + 1) / 2) = 3 := cex_count_mid _ hm1 hm2
    have hstep : fvLoop (K := ℚ) cexPts 1 (1 / 20) (n + 1 + 1) a 1 v0 =
        fvLoop (K := ℚ) cexPts 1 (1 / 20) (n + 1) ((a + 1) / 2) 1 ((a + 1) / 2) := by
      simp only [fvLoop, hc]
      rw [if_neg (by norm_num), if_neg (by norm_num), if_pos (by norm_num)]
    rw [hstep, ih ((a + 1) / 2) ((a + 1) / 2) (by linarith) hm2]
    exact congrArg Except.ok (by ring)

/-- Every candidate the trace visits from such a state lies in `[4/5, 1)`
except possibly the very first midpoint, which lies in `[4/5, 1)` as well
once the lower bound is at least `3/5`. -/
theorem cex_fvTrace_bounds : ∀ (n : ℕ) (a : ℚ), 3 / 5 ≤ a → a < 1 →
    ∀ w ∈ fvTrace (K := ℚ) cexPts 1 (1 / 20) n a 1, 4 / 5 ≤ w ∧ w < 1 := by
  intro n
  induction n with
  | zero => intro a _ _ w hw; simp [fvTrace] at hw
  | succ n ih =>
    intro a h1 h2 w hw
    have hm1 : (4 / 5 : ℚ) ≤ (a + 1) / 2 := by linarith
    have hm2 : (a + 1) / 2 < 1 := by linarith
    have hc : voxelCount (K := ℚ) cexPts ((a + 1) / 2) = 3 := cex_count_mid _ hm1 hm2
    have htr : fvTrace (K := ℚ) cexPts 1 (1 / 20) (n + 1) a 1 =
        ((a + 1) / 2) :: fvTrace (K := ℚ) cexPts 1 (1 / 20) n ((a + 1) / 2) 1 := by
      simp only [fvTrace, hc]
      rw [if_neg (by norm_num), if_neg (by norm_num), if_pos (by norm_num)]
    rw [htr] at hw
    rcases List.mem_cons.mp hw with rfl | hw
    · exact ⟨hm1, hm2⟩
    · exact ih ((a + 1) / 2) (by linarith) hm2 w hw

/-- One-step unfolding of the bisection loop at successor fuel. -/
theorem fvLoop_succ_eq {K : Type} [LinearOrderedField K] [FloorRing K]
    (pts : List Q3) (t : ℤ) (tol : ℚ) (n : ℕ) (a b c : K) :
    fvLoop pts t tol (n + 1) a b c =
      (if t = 0 then Except.error PyErr.zeroDivisionError
       else if |(voxelCount pts ((a + b) / 2) : ℚ) - (t : ℚ)| / (t : ℚ) ≤ tol then
         Except.ok ((a + b) / 2)
       else if (voxelCount pts ((a + b) / 2) : ℤ) > t then
         fvLoop pts t tol n ((a + b) / 2) b ((a + b) / 2)
       else fvLoop pts t tol n a ((a + b) / 2) ((a + b) / 2)) := rfl

/-- One-step unfolding of the midpoint trace at successor fuel. -/
theorem fvTrace_succ_eq {K : Type} [LinearOrderedField K] [FloorRing K]
    (pts : List Q3) (t : ℤ) (tol : ℚ) (n : ℕ) (a b : K) :
    fvTrace pts t tol (n + 1) a b =
      (a + b) / 2 ::
      (if t = 0 then []
       else if |(voxelCount pts ((a + b) / 2) : ℚ) - (t : ℚ)| / (t : ℚ) ≤ tol then []
       else if (voxelCount pts ((a + b) / 2) : ℤ) > t then
         fvTrace pts t tol n ((a + b) / 2) b
       else fvTrace pts t tol n a ((a + b) / 2)) := rfl

/-- The first iteration from the seeds `(1/5, 1)`: midpoint `3/5`, count 2,
still above the target, so the loop recurses on `(3/5, 1)`. -/
theorem cex_first_step :
    fvLoop (K := ℚ) cexPts 1 (1 / 20) 50 (1 / 5) 1 0 =
      fvLoop (K := ℚ) cexPts 1 (1 / 20) 49 (3 / 5) 1 (3 / 5) := by
  have hm : ((1 / 5 : ℚ) + 1) / 2 = 3 / 5 := by norm_num
  rw [show (50 : ℕ) = 49 + 1 from rfl, fvLoop_succ_eq, hm, cex_count_35]
  rw [if_neg (by norm_num), if_neg (by norm_num), if_pos (by norm_num)]

theorem cex_trace_head :
    fvTrace (K := ℚ) cexPts 1 (1 / 20) 50 (1 / 5) 1 =
      (3 / 5) :: fvTrace (K := ℚ) cexPts 1 (1 / 20) 49 (3 / 5) 1 := by
  have hm : ((1 / 5 : ℚ) + 1) / 2 = 3 / 5 := by norm_num
  rw [show (50 : ℕ) = 49 + 1 from rfl, fvTrace_succ_eq, hm, cex_count_35]
  rw [if_neg (by norm_num), if_neg (by norm_num), if_pos (by norm_num)]

/-- The seed bounds of the calibration on `cexPts` with target 1 are the
rationals `1/5` and `1`. -/
theorem cex_seeds :
    bboxDiag cexPts / (((1 : ℤ) : ℝ) ^ ((1 : ℝ) / 3) * 10) = ((1 / 5 : ℚ) : ℝ) ∧
      bboxDiag cexPts / 2 = ((1 : ℚ) : ℝ) := by
  have hx : cexPts.map (fun p => p.1) = [-1, 7/10, 1] := by
    simp [cexPts]
  have hy : cexPts.map (fun p => p.2.1) = [0, 0, 0] := by
    simp [cexPts]
  have hz : cexPts.map (fun p => p.2.2) = [0, 0, 0] := by
    simp [cexPts]
  have hmax : npMaxQ [(-1 : ℚ), 7/10, 1] = 1 := by
    show max (max (-1 : ℚ) (7/10)) 1 = 1
    rw [max_eq_right (by norm_num : ((-1:ℚ)) ≤ 7/10), max_eq_right (by norm_num)]
  have hmin : npMinQ [(-1 : ℚ), 7/10, 1] = -1 := by
    show min (min (-1 : ℚ) (7/10)) 1 = -1
    rw [min_eq_left (by norm_num : ((-1:ℚ)) ≤ 7/10), min_eq_left (by norm_num)]
  have hmax0 : npMaxQ [(0 : ℚ), 0, 0] = 0 := by
    show max (max (0 : ℚ) 0) 0 = 0
    simp
  have hmin0 : npMinQ [(0 : ℚ), 0, 0] = 0 := by
    show min (min (0 : ℚ) 0) 0 = 0
    simp
  have hdiag : bboxDiag cexPts = 2 := by
    rw [bboxDiag, hx, hy, hz, hmax, hmin, hmax0, hmin0]
    rw [show ((1 : ℚ) - (-1) : ℚ) = 2 by norm_num, show ((0 : ℚ) - 0 : ℚ) = 0 by norm_num]
    rw [show (((2 : ℚ) : ℝ)) = 2 by norm_num, show (((0 : ℚ) : ℝ)) = 0 by norm_num]
    rw [show ((2 : ℝ) ^ 2 + 0 ^ 2 + 0 ^ 2) = 2 ^ 2 by ring]
    exact Real.sqrt_sq (by norm_num)
  constructor
  · rw [hdiag, show (((1 : ℤ) : ℝ)) = 1 by norm_num, Real.one_rpow]
    norm_num
  · rw [hdiag]
    norm_num

/-- Calibration on the counterexample: the tolerance never fires, the
budget is exhausted, and the returned voxel size is the midpoint of the
50th (final) iteration. -/
theorem cex_find_voxel_size :
    find_voxel_size_for_target cexPts 1 (1 / 20) =
      Except.ok (((1 - (1 - 3 / 5) / 2 ^ 49 : ℚ) : ℝ)) := by
  rw [find_voxel_size_for_target, cex_seeds.1, cex_seeds.2,
    show (0 : ℝ) = ((0 : ℚ) : ℝ) by norm_num, fvLoop_cast, cex_first_step,
    show (49 : ℕ) = 48 + 1 from rfl,
    cex_fvLoop_closed 48 (3 / 5) (3 / 5) (by norm_num) (by norm_num)]
  rfl

section FvLoopLast

variable {K : Type} [LinearOrderedField K] [FloorRing K]

/-- When no visited midpoint meets the tolerance (and the target is not
zero), the bisection loop returns the *last* midpoint it computed — the
final element of its visited trace — not the best one. -/
theorem fvLoop_getLast (pts : List Q3) (t : ℤ) (tol : ℚ) (ht : ¬ t = 0) :
    ∀ (fuel : ℕ) (a b v0 : K),
      (∀ w ∈ fvTrace pts t tol fuel a b,
        ¬ (|(voxelCount pts w : ℚ) - (t : ℚ)| / (t : ℚ) ≤ tol)) →
      fvLoop pts t tol fuel a b v0 =
        Except.ok ((fvTrace pts t tol fuel a b).getLastD v0) := by
  intro fuel
  induction fuel with
  | zero => intro a b v0 _; rfl
  | succ n ih =>
    intro a b v0 hno
    have hmid : (a + b) / 2 ∈ fvTrace pts t tol (n + 1) a b := by
      rw [fvTrace_succ_eq]
      exact List.mem_cons_self _ _
    have hnomid := hno _ hmid
    rw [fvLoop_succ_eq, fvTrace_succ_eq, if_neg ht, if_neg hnomid, if_neg ht,
      if_neg hnomid, List.getLastD_cons]
    split
    · rename_i hcnt
      refine ih _ _ _ ?_
      intro w hw
      refine hno w ?_
      rw [fvTrace_succ_eq, if_neg ht, if_neg hnomid, if_pos hcnt]
      exact List.mem_cons_of_mem _ hw
    · rename_i hcnt
      refine ih _ _ _ ?_
      intro w hw
      refine hno w ?_
      rw [fvTrace_succ_eq, if_neg ht, if_neg hnomid, if_neg hcnt]
      exact List.mem_cons_of_mem _ hw

end FvLoopLast

/-- C7 counterexample: on `cexPts` with target 1 the 50-iteration budget is
exhausted without convergence, and the function returns the *final*
midpoint, whose occupied-voxel count is 3 — although the visited midpoint
`3/5` had count 2, strictly closer to the target.  So the function does
not return the best midpoint found. -/
theorem c7_counterexample :
    find_voxel_size_for_target cexPts 1 (1 / 20) =
      Except.ok (((1 - (1 - 3 / 5) / 2 ^ 49 : ℚ) : ℝ)) ∧
    voxelCount cexPts (((1 - (1 - 3 / 5) / 2 ^ 49 : ℚ) : ℝ)) = 3 ∧
    ((3 / 5 : ℚ) : ℝ) ∈ fvTrace (K := ℝ) cexPts 1 (1 / 20) 50
      (bboxDiag cexPts / (((1 : ℤ) : ℝ) ^ ((1 : ℝ) / 3) * 10)) (bboxDiag cexPts / 2) ∧
    voxelCount cexPts (((3 / 5 : ℚ) : ℝ)) = 2 ∧
    |((2 : ℚ)) - 1| < |((3 : ℚ)) - 1| := by
  refine ⟨cex_find_voxel_size, ?_, ?_, ?_, by norm_num⟩
  · rw [voxelCount_cast]
    refine cex_count_mid _ ?_ ?_ <;> norm_num
  · rw [cex_seeds.1, cex_seeds.2, fvTrace_cast, cex_trace_head]
    exact List.mem_map_of_mem _ (List.mem_cons_self _ _)
  · rw [voxelCount_cast]
    exact cex_count_35

/-- C7 (amended): if the calibration's 50-iteration budget is exhausted
with no visited midpoint meeting the 5% relative tolerance (target
nonzero), `find_voxel_size_for_target` does not fail: it returns the
midpoint computed in the *final* iteration — the last element of the
visited-candidate trace — rather than the best-scoring midpoint. -/
theorem c7_returns_last_midpoint (pts : List Q3) (t : ℤ) (tol : ℚ) (ht : ¬ t = 0)
    (hnotol : ∀ w ∈ fvTrace (K := ℝ) pts t tol 50
        (bboxDiag pts / ((t : ℝ) ^ ((1 : ℝ) / 3) * 10)) (bboxDiag pts / 2),
      ¬ (|(voxelCount pts w : ℚ) - (t : ℚ)| / (t : ℚ) ≤ tol)) :
    find_voxel_size_for_target pts t tol =
      Except.ok ((fvTrace (K := ℝ) pts t tol 50
        (bboxDiag pts / ((t : ℝ) ^ ((1 : ℝ) / 3) * 10)) (bboxDiag pts / 2)).getLastD 0) := by
  rw [find_voxel_size_for_target]
  exact fvLoop_getLast pts t tol ht 50 _ _ 0 hnotol

theorem c7_witness :
    (¬ (1 : ℤ) = 0 ∧
      (∀ w ∈ fvTrace (K := ℝ) cexPts 1 (1 / 20) 50
          (bboxDiag cexPts / (((1 : ℤ) : ℝ) ^ ((1 : ℝ) / 3) * 10)) (bboxDiag cexPts / 2),
        ¬ (|(voxelCount cexPts w : ℚ) - ((1 : ℤ) : ℚ)| / ((1 : ℤ) : ℚ) ≤ 1 / 20))) ∧
    find_voxel_size_for_target cexPts 1 (1 / 20) =
      Except.ok ((fvTrace (K := ℝ) cexPts 1 (1 / 20) 50
        (bboxDiag cexPts / (((1 : ℤ) : ℝ) ^ ((1 : ℝ) / 3) * 10))
        (bboxDiag cexPts / 2)).getLastD 0) := by
  have hnotol : ∀ w ∈ fvTrace (K := ℝ) cexPts 1 (1 / 20) 50
      (bboxDiag cexPts / (((1 : ℤ) : ℝ) ^ ((1 : ℝ) / 3) * 10)) (bboxDiag cexPts / 2),
      ¬ (|(voxelCount cexPts w : ℚ) - ((1 : ℤ) : ℚ)| / ((1 : ℤ) : ℚ) ≤ 1 / 20) := by
    intro w hw
    rw [cex_seeds.1, cex_seeds.2, fvTrace_cast, cex_trace_head] at hw
    obtain ⟨q, hq, rfl⟩ := List.mem_map.mp hw
    rw [voxelCount_cast]
    rcases List.mem_cons.mp hq with rfl | hq
    · rw [cex_count_35]
      norm_num
    · have hb := cex_fvTrace_bounds 49 (3 / 5) (by norm_num) (by norm_num) q hq
      rw [cex_count_mid q hb.1 hb.2]
      norm_num
  exact ⟨⟨by norm_num, hnotol⟩, c7_returns_last_midpoint cexPts 1 (1 / 20) (by norm_num) hnotol⟩
